import Mathlib

/-!
Verification of the diyepw AMY-EPW generation pipeline
(`diyepw/create_amy_epw_file.py`) against its specification.

The development shallowly embeds the pipeline:

* timestamps are integers (hours since a fixed epoch), `intRange` models a
  contiguous hourly `pandas.date_range`;
* observation values are `Option ℚ`, with `none` playing the role of `NaN`
  (the single absent marker the pipeline normalizes all sentinels to);
* a dataframe is an index list together with named, index-parallel columns;
* fallible code returns `Except`, and the in-place mutation performed by
  `_handle_missing_values` is made explicit by threading the table state,
  including the state at the moment an exception is raised.
-/

namespace Diyepw

/-! ## Segment splitting (`_split_list_into_contiguous_segments`) -/

/-- The fold at the heart of `_split_list_into_contiguous_segments`
(`create_amy_epw_file.py`, lines 342-353): walk the sorted list keeping the
current segment and the previous value; a value whose distance from the
previous one is not exactly `step` closes the current segment. -/
def splitGo (step : ℤ) : List ℤ → Option ℤ → List ℤ → List (List ℤ) → List (List ℤ)
  | [], _, cur, segs => if 0 < cur.length then segs ++ [cur] else segs
  | val :: rest, some p, cur, segs =>
    if val - step ≠ p then splitGo step rest (some val) [val] (segs ++ [cur])
    else splitGo step rest (some val) (cur ++ [val]) segs
  | val :: rest, none, cur, segs => splitGo step rest (some val) (cur ++ [val]) segs

/-- Embedding of `_split_list_into_contiguous_segments` (lines 316-355):
deduplicate (`list(set(l))`), sort ascending (`l.sort()`), then split into
maximal runs whose consecutive elements differ by exactly `step`. -/
def _split_list_into_contiguous_segments (l : List ℤ) (step : ℤ) : List (List ℤ) :=
  splitGo step (List.insertionSort (· ≤ ·) l.dedup) none [] []

/-- Consecutive members of a segment differ by exactly `step`. -/
def stepChain (step : ℤ) (s : List ℤ) : Prop :=
  List.Chain' (fun a b => b - a = step) s

/-- The gap between the last element of one segment and the first element of
the next is strictly greater than `step`. -/
def segGap (step : ℤ) (s t : List ℤ) : Prop :=
  ∀ a ∈ s.getLast?, ∀ b ∈ t.head?, step < b - a

/-! ## Calendar grid and the grid-aligning merge (`_map_noaa_df_to_year`) -/

/-- `intRange a n` is the list `[a, a+1, …, a+n-1]` of `n` consecutive
integers; it models a contiguous hourly `pandas.date_range` with timestamps
counted in hours. -/
def intRange (a : ℤ) : ℕ → List ℤ
  | 0 => []
  | n + 1 => a :: intRange (a + 1) n

/-- Gregorian leap-year rule, as used by the pandas calendar underlying
`pd.date_range`. -/
def isLeapYear (y : ℕ) : Bool :=
  (y % 4 == 0 && y % 100 != 0) || y % 400 == 0

def daysInYear (y : ℕ) : ℕ := if isLeapYear y then 366 else 365

def hoursInYear (y : ℕ) : ℕ := 24 * daysInYear y

/-- The hour number of `year-01-01T00:00`, counting hours from year 0. -/
def yearStartHour (y : ℕ) : ℤ :=
  24 * (((List.range y).map daysInYear).sum : ℤ)

/-- Model of `pd.date_range(str(year) + '-01-01 00:00:00',
str(year) + '-12-31 23:00:00', freq='H')` (line 199): the contiguous hourly
grid of the target year. -/
def hourlyGrid (y : ℕ) : List ℤ := intRange (yearStartHour y) (hoursInYear y)

/-- Model of `df.shift(periods=tmy.timezone_gmt_offset, freq='H')`
(line 113): shift every timestamp of the index by a constant number of
hours, leaving the row values untouched. -/
def shiftIndex (k : ℤ) (rows : List (ℤ × List (Option ℚ))) : List (ℤ × List (Option ℚ)) :=
  rows.map (fun r => (r.1 + k, r.2))

/-- Model of `pd.merge(all_timestamps, df, how='left', left_on='timestamp',
right_index=True)` (line 203): every grid timestamp is kept, in grid order;
a grid hour is paired with every raw row carrying that timestamp, or with a
single all-absent row when no raw row matches; raw rows whose timestamp is
not on the grid are dropped. -/
def mergeOntoGrid (grid : List ℤ) (rows : List (ℤ × List (Option ℚ))) (ncols : ℕ) :
    List (ℤ × List (Option ℚ)) :=
  grid.flatMap (fun t =>
    match rows.filter (fun r => r.1 = t) with
    | [] => [(t, List.replicate ncols none)]
    | ms => ms.map (fun r => (t, r.2)))

/-- The row a grid hour receives from the merge when the raw timestamps are
duplicate-free: the matching raw row, or an all-absent row. -/
def rowAt (rows : List (ℤ × List (Option ℚ))) (ncols : ℕ) (t : ℤ) : List (Option ℚ) :=
  match rows.filter (fun r => r.1 = t) with
  | [] => List.replicate ncols none
  | r :: _ => r.2

/-- Embedding of `_map_noaa_df_to_year` (lines 190-206): left-merge the
(already shifted) observation table onto the canonical hourly grid of the
target year. -/
def _map_noaa_df_to_year (df : List (ℤ × List (Option ℚ))) (year : ℕ) (ncols : ℕ) :
    List (ℤ × List (Option ℚ)) :=
  mergeOntoGrid (hourlyGrid year) df ncols

/-! ## Missing-value handling (`_handle_missing_values`) -/

/-- Read a column value at a timestamp: the value paired with the first
occurrence of the timestamp in the index (`df[col_name][timestamp]`). -/
def lookupVal : List ℤ → List (Option ℚ) → ℤ → Option ℚ
  | i :: is, v :: vs, t => if i = t then v else lookupVal is vs t
  | _, _, _ => none

/-- Write a column value at a timestamp (`df[col_name][timestamp] = x`),
leaving positions whose index label differs untouched. -/
def setVal : List ℤ → List (Option ℚ) → ℤ → Option ℚ → List (Option ℚ)
  | i :: is, v :: vs, t, x => (if i = t then x else v) :: setVal is vs t x
  | _, vs, _, _ => vs

/-- The timestamps (in index order) at which a column is absent:
`df.index[df[col_name].isna()].tolist()` (line 252). -/
def missingPositions : List ℤ → List (Option ℚ) → List ℤ
  | i :: is, none :: vs => i :: missingPositions is vs
  | _ :: is, some _ :: vs => missingPositions is vs
  | _, _ => []

/-- Model of `pandas.Series(replacement_values).mean()` (line 308): the mean
of the non-absent collected values, or the absent marker when every collected
value is absent (or none was collected). -/
def nanmean (rs : List (Option ℚ)) : Option ℚ :=
  let xs := rs.filterMap id
  if xs.length = 0 then none else some (xs.sum / xs.length)

/-- The `while replacement_value_index <= index_to_impute + imputation_range`
loop of lines 300-305, unrolled with enough fuel: visits
`t - range, t - range + istep, …` while the bound `hi = t + range` is not
exceeded. -/
def windowPositionsAux (hi istep : ℤ) : ℕ → ℤ → List ℤ
  | 0, _ => []
  | fuel + 1, rvi =>
    if rvi ≤ hi then rvi :: windowPositionsAux hi istep fuel (rvi + istep) else []

/-- The timestamps visited by the imputation window walk around `t`:
`t - range, t - range + istep, …, ≤ t + range`. The fuel `(2*range).toNat + 1`
bounds the loop count whenever `1 ≤ istep`, which holds at the only call site
(`imputation_step` is one day). -/
def windowPositions (t range istep : ℤ) : List ℤ :=
  windowPositionsAux (t + range) istep ((2 * range).toNat + 1) (t - range)

/-- The values collected by the window walk: positions outside the table's
index are skipped (`if replacement_value_index in df.index`, line 303), and
the (possibly absent) column value is collected for the rest. -/
def windowSamples (idx : List ℤ) (vals : List (Option ℚ)) (t range istep : ℤ) :
    List (Option ℚ) :=
  (windowPositions t range istep).filterMap
    (fun q => if q ∈ idx then some (lookupVal idx vals q) else none)

/-- One iteration of the `for index_to_impute in indices_to_impute` loop
(lines 299-308): set the value at `t` to the mean of the window samples read
from the column's current state. -/
def imputeOnce (idx : List ℤ) (range istep : ℤ) (vs : List (Option ℚ)) (t : ℤ) :
    List (Option ℚ) :=
  setVal idx vs t (nanmean (windowSamples idx vs t range istep))

/-- The `for indices in indices_to_replace` loop (lines 286-308): segments no
longer than `max_to_interpolate` are skipped, the rest have all their
positions except the first and last (`indices[1:-1]`) imputed in order. -/
def imputeColumn (idx : List ℤ) (range istep : ℤ) (maxToInterpolate : ℕ)
    (segs : List (List ℤ)) (vals : List (Option ℚ)) : List (Option ℚ) :=
  segs.foldl (fun vs seg =>
    if seg.length ≤ maxToInterpolate then vs
    else ((seg.drop 1).dropLast).foldl (imputeOnce idx range istep) vs) vals

/-- The positions that the imputation pass writes to: the interiors of all
segments longer than `max_to_interpolate`. -/
def interiorPositions (maxToInterpolate : ℕ) (segs : List (List ℤ)) : List ℤ :=
  segs.flatMap (fun s =>
    if s.length ≤ maxToInterpolate then [] else (s.drop 1).dropLast)

/-- Modelled from the spec: snapshot-based imputation, in which every
imputation read observes the column's pre-imputation values, so the result at
each interior position is the window mean taken over the original column and
the processing order of segments cannot influence the outcome. -/
def imputeColumnSnapshot (idx : List ℤ) (range istep : ℤ) (ints : List ℤ)
    (vals : List (Option ℚ)) : List (Option ℚ) :=
  List.zipWith
    (fun i v => if i ∈ ints then nanmean (windowSamples idx vals i range istep) else v)
    idx vals

/-- `len(max(indices_to_replace, key=len))` (line 271): the length of the
longest contiguous run of missing values. -/
def maxRunLen (segs : List (List ℤ)) : ℕ :=
  (segs.map List.length).foldl Nat.max 0

/-- The length of the longest contiguous missing run of a column, as the code
measures it. -/
def columnMaxRun (idx : List ℤ) (step : ℤ) (vals : List (Option ℚ)) : ℕ :=
  maxRunLen (_split_list_into_contiguous_segments (missingPositions idx vals) step)

/-- The data carried by the exception of line 276: column name, observed
longest run, and the `max_to_impute` ceiling. -/
structure HMVError where
  col : String
  maxLen : ℕ
  ceiling : ℕ
deriving DecidableEq

/-- The per-column body of the `for col_name in df` loop (lines 263-308):
detect the missing runs, raise when the longest run exceeds the imputation
ceiling, otherwise impute the interiors of the medium runs in place. -/
def processColumn (idx : List ℤ) (step : ℤ) (maxToInterpolate maxToImpute : ℕ)
    (range istep : ℤ) (name : String) (vals : List (Option ℚ)) :
    Except HMVError (List (Option ℚ)) :=
  let segs := _split_list_into_contiguous_segments (missingPositions idx vals) step
  if segs.length = 0 then .ok vals
  else if maxToImpute < maxRunLen segs then .error ⟨name, maxRunLen segs, maxToImpute⟩
  else .ok (imputeColumn idx range istep maxToInterpolate segs vals)

/-- The sentinel normalization of lines 259-261: values appearing in
`missing_values` become the absent marker. -/
def normalizeVals (missing : List ℚ) (vals : List (Option ℚ)) : List (Option ℚ) :=
  vals.map (fun v => match v with
    | none => none
    | some x => if x ∈ missing then none else some x)

/-- The column loop of `_handle_missing_values`, processing columns left to
right; an error stops the loop, and the returned error state records each
column as it stood when the exception was raised (earlier columns already
imputed, the failing and later columns untouched past normalization),
mirroring the in-place mutation of the pandas frame. -/
def hmvColumns (idx : List ℤ) (step : ℤ) (maxToInterpolate maxToImpute : ℕ)
    (range istep : ℤ) :
    List (String × List (Option ℚ)) →
      Except (HMVError × List (String × List (Option ℚ))) (List (String × List (Option ℚ)))
  | [] => .ok []
  | (n, vs) :: rest =>
    match processColumn idx step maxToInterpolate maxToImpute range istep n vs with
    | .error e => .error (e, (n, vs) :: rest)
    | .ok vs' =>
      match hmvColumns idx step maxToInterpolate maxToImpute range istep rest with
      | .error (e, rest') => .error (e, (n, vs') :: rest')
      | .ok rest' => .ok ((n, vs') :: rest')

/-- A dataframe: a timestamp index and named columns parallel to it. -/
structure DataFrame where
  idx : List ℤ
  cols : List (String × List (Option ℚ))
deriving DecidableEq

/-- Largest `j < i` with a present value, together with that value: the left
neighbor used by linear interpolation. -/
def prevValid (vals : List (Option ℚ)) : ℕ → Option (ℕ × ℚ)
  | 0 => none
  | j + 1 =>
    match vals.getD j none with
    | some v => some (j, v)
    | none => prevValid vals j

/-- Scan upward from position `j` for the next present value (with fuel). -/
def nextValidFrom (vals : List (Option ℚ)) : ℕ → ℕ → Option (ℕ × ℚ)
  | 0, _ => none
  | fuel + 1, j =>
    match vals.getD j none with
    | some v => some (j, v)
    | none => nextValidFrom vals fuel (j + 1)

/-- Smallest `j > i` with a present value, together with that value: the right
neighbor used by linear interpolation. -/
def nextValid (vals : List (Option ℚ)) (i : ℕ) : Option (ℕ × ℚ) :=
  nextValidFrom vals vals.length (i + 1)

/-- The value `DataFrame.interpolate()` (default linear method,
forward limit direction) leaves at position `i`: present values are kept;
an absent value with present neighbors on both sides is linearly
interpolated; an absent value with only a left neighbor is filled with that
neighbor's value (the clamping pandas applies past the last present value);
an absent value with no left neighbor stays absent (leading absences are not
filled in the forward direction). -/
def interpAt (vals : List (Option ℚ)) (i : ℕ) : Option ℚ :=
  match vals.getD i none with
  | some v => some v
  | none =>
    match prevValid vals i, nextValid vals i with
    | some (j, vj), some (k, vk) =>
      some (vj + (vk - vj) * (((i : ℚ) - (j : ℚ)) / ((k : ℚ) - (j : ℚ))))
    | some (_, vj), none => some vj
    | none, _ => none

/-- Model of the final `df.interpolate(inplace=True)` (line 314), one column
at a time. -/
def interpolateColumn (vals : List (Option ℚ)) : List (Option ℚ) :=
  (List.range vals.length).map (interpAt vals)

/-- Embedding of `_handle_missing_values` (lines 208-314) on the explicit
dataframe: normalize sentinels, run the per-column detect/raise/impute loop,
and on success run the linear-interpolation pass over every column. On error
the mutated-in-place state of the frame at the moment the exception was
raised is returned alongside the error, since the Python function mutates its
argument. -/
def _handle_missing_values (df : DataFrame) (step : ℤ)
    (maxToInterpolate maxToImpute : ℕ) (range istep : ℤ) (missing : List ℚ) :
    Except (HMVError × DataFrame) DataFrame :=
  let ncols := df.cols.map (fun c => (c.1, normalizeVals missing c.2))
  match hmvColumns df.idx step maxToInterpolate maxToImpute range istep ncols with
  | .error (e, cols') => .error (e, ⟨df.idx, cols'⟩)
  | .ok cols' => .ok ⟨df.idx, cols'.map (fun c => (c.1, interpolateColumn c.2))⟩

/-! ## Pressure conversion (`_convert_sea_level_pressure_to_station_pressure`) -/

/-- Embedding of `_convert_sea_level_pressure_to_station_pressure`
(lines 357-373): sea-level pressure in hPa×10 and elevation in metres to
station pressure in Pa, through inHg and the barometric formula. -/
noncomputable def _convert_sea_level_pressure_to_station_pressure (Pa h_m : ℝ) : ℝ :=
  let Pa_inHg := Pa / 10 * 0.029529983071445
  let Pstn_inHg := Pa_inHg * ((288 - 0.0065 * h_m) / 288) ^ (5.2561 : ℝ)
  Pstn_inHg * 3386.389

/-- The spec's formula, stated in its own words: convert to inHg with the
factor 0.0029529983071445 per hPa×10 unit, apply
`Pstn = Psl * ((288 − 0.0065·h)/288)^5.2561`, convert back to Pa with
3386.389. -/
noncomputable def specStationPressure (Psl h : ℝ) : ℝ :=
  Psl * 0.0029529983071445 * ((288 - 0.0065 * h) / 288) ^ (5.2561 : ℝ) * 3386.389

/-! ## Orchestration (`create_amy_epw_file`) -/

/-- Modelled from the spec: the station metadata the orchestrator reads from
the TMY template collaborator (`Meteorology.from_tmy3_file`, not part of this
repository's sources) — the naming fields used to build the output file
name. Names are lists of characters. -/
structure TmyMeta where
  country : List Char
  state : List Char
  city : List Char
  station_number : List Char
deriving DecidableEq

/-- Modelled from the spec: the file-system state the orchestrator consults
(existing paths) plus the process-wide temporary directory that is the
default output location. -/
structure World where
  fs : List (List Char)
  tempdir : List Char
deriving DecidableEq

/-- The error taxonomy of the orchestrator paths embedded here. -/
inductive BuildError where
  | bothAmySources : BuildError
  | missingPath : List Char → BuildError
  | pipelineFailed : BuildError
deriving DecidableEq

/-- The output file name of lines 93-94:
`{country}_{state}_{city}.{station_number}_AMY_{year}.epw` with every space
replaced by a hyphen. -/
def amy_epw_file_name (tmy : TmyMeta) (year : ℕ) : List Char :=
  (tmy.country ++ '_' :: tmy.state ++ '_' :: tmy.city ++ '.' :: tmy.station_number
      ++ '_' :: 'A' :: 'M' :: 'Y' :: '_' :: (Nat.toDigits 10 year ++ ['.', 'e', 'p', 'w'])).map
    (fun c => if c = ' ' then '-' else c)

/-- `os.path.join` for the simple directory-plus-name case used here. -/
def pathJoin (dir name : List Char) : List Char := dir ++ '/' :: name

/-- The tail of `create_amy_epw_file` from line 93 on: build the
deterministic output path, short-circuit when it already exists (lines
97-99), otherwise run the data pipeline — reading, aligning, repairing,
converting, splicing, validating, abstracted to its success bit, with the
collaborators modelled from the spec — and write the file on success. -/
def finishBuild (w : World) (dir : List Char) (tmy : TmyMeta) (year : ℕ)
    (pipelineOk : Bool) : Except BuildError (List Char) × World :=
  let path := pathJoin dir (amy_epw_file_name tmy year)
  if path ∈ w.fs then (.ok path, w)
  else if pipelineOk then (.ok path, { w with fs := path :: w.fs })
  else (.error .pipelineFailed, w)

/-- Embedding of the orchestration skeleton of `create_amy_epw_file`
(lines 19-152): reject the conflicting source modes first (lines 61-62),
default the output directory to the process-wide temporary directory
(lines 64-66), check the existence of explicitly given AMY files in order
(lines 75-78), then build. Download and TMY-template collaborators are
modelled from the spec as succeeding (they cache and return paths), the TMY
metadata being passed in directly; the second component of the result is the
file-system state after the call. -/
def create_amy_epw_file (w : World) (tmy : TmyMeta) (year : ℕ)
    (amy_epw_dir : Option (List Char)) (amy_dir : Option (List Char))
    (amy_files : Option (List Char × List Char)) (pipelineOk : Bool) :
    Except BuildError (List Char) × World :=
  if amy_dir.isSome ∧ amy_files.isSome then (.error .bothAmySources, w)
  else
    let dir := amy_epw_dir.getD w.tempdir
    match amy_files with
    | some (p1, p2) =>
      if p1 ∉ w.fs then (.error (.missingPath p1), w)
      else if p2 ∉ w.fs then (.error (.missingPath p2), w)
      else finishBuild w dir tmy year pipelineOk
    | none => finishBuild w dir tmy year pipelineOk

/-! ## Theorems -/

theorem chain'_append_singleton {α : Type} (R : α → α → Prop) (xs : List α) (c : α) :
    List.Chain' R (xs ++ [c]) ↔ List.Chain' R xs ∧ ∀ s ∈ xs.getLast?, R s c := by
  rw [List.chain'_append]
  simp

theorem chain'_and {α : Type} {R S : α → α → Prop} :
    ∀ {l : List α}, List.Chain' R l → List.Chain' S l →
      List.Chain' (fun a b => R a b ∧ S a b) l
  | [], _, _ => List.chain'_nil
  | [a], _, _ => List.chain'_singleton a
  | a :: b :: l, hR, hS => by
    rw [List.chain'_cons] at hR hS ⊢
    exact ⟨⟨hR.1, hS.1⟩, chain'_and hR.2 hS.2⟩

theorem splitGo_flatten (step : ℤ) :
    ∀ (l : List ℤ) (prev : Option ℤ) (cur : List ℤ) (segs : List (List ℤ)),
      (splitGo step l prev cur segs).flatten = segs.flatten ++ cur ++ l := by
  intro l
  induction l with
  | nil =>
    intro prev cur segs
    cases cur with
    | nil => simp [splitGo]
    | cons a l => simp [splitGo]
  | cons val rest ih =>
    intro prev cur segs
    match prev with
    | none => rw [splitGo, ih]; simp
    | some p =>
      rw [splitGo]
      by_cases h : val - step ≠ p
      · rw [if_pos h, ih]; simp
      · rw [if_neg h, ih]; simp

/-- Invariant-carrying specification of `splitGo`: starting from a state where
the current segment is nonempty, ends at the previous value, and satisfies the
step-chain property, and the accumulated segments are nonempty step-chains
with proper gaps, the final output consists of nonempty step-chains whose
consecutive gaps exceed `step`. -/
theorem splitGo_spec (step : ℤ) :
    ∀ (rest : List ℤ) (v : ℤ) (cur : List ℤ) (segs : List (List ℤ)),
      cur ≠ [] →
      cur.getLast? = some v →
      stepChain step cur →
      (∀ s ∈ segs, stepChain step s ∧ s ≠ []) →
      List.Chain' (segGap step) (segs ++ [cur]) →
      List.Chain' (fun a b => a < b ∧ a + step ≤ b) (v :: rest) →
      (∀ s ∈ splitGo step rest (some v) cur segs, stepChain step s ∧ s ≠ []) ∧
        List.Chain' (segGap step) (splitGo step rest (some v) cur segs) := by
  intro rest
  induction rest with
  | nil =>
    intro v cur segs hne hlast hchain hsegs hgaps _
    rw [splitGo, if_pos (List.length_pos.mpr hne)]
    refine ⟨?_, hgaps⟩
    intro s hs
    rcases List.mem_append.mp hs with h | h
    · exact hsegs s h
    · rcases List.mem_singleton.mp h with rfl
      exact ⟨hchain, hne⟩
  | cons val rest ih =>
    intro v cur segs hne hlast hchain hsegs hgaps hinput
    rw [List.chain'_cons] at hinput
    obtain ⟨⟨hlt, hle⟩, hinput'⟩ := hinput
    rw [splitGo]
    by_cases h : val - step ≠ v
    · rw [if_pos h]
      apply ih val [val] (segs ++ [cur])
      · simp
      · simp
      · exact List.chain'_singleton val
      · intro s hs
        rcases List.mem_append.mp hs with h' | h'
        · exact hsegs s h'
        · rcases List.mem_singleton.mp h' with rfl
          exact ⟨hchain, hne⟩
      · rw [chain'_append_singleton]
        refine ⟨hgaps, ?_⟩
        intro s hs
        rw [List.getLast?_concat] at hs
        rcases Option.mem_some_iff.mp hs with rfl
        intro a ha b hb
        rw [hlast] at ha
        rcases Option.mem_some_iff.mp ha with rfl
        simp only [List.head?_cons, Option.mem_some_iff] at hb
        subst hb
        omega
      · exact hinput'
    · rw [if_neg h]
      push_neg at h
      apply ih val (cur ++ [val]) segs
      · simp
      · exact List.getLast?_concat _
      · rw [stepChain, chain'_append_singleton]
        refine ⟨hchain, ?_⟩
        intro s hs
        rw [hlast] at hs
        rcases Option.mem_some_iff.mp hs with rfl
        omega
      · exact hsegs
      · rw [chain'_append_singleton] at hgaps ⊢
        refine ⟨hgaps.1, ?_⟩
        intro s hs
        intro a ha b hb
        rw [List.head?_append_of_ne_nil _ hne] at hb
        exact hgaps.2 s hs a ha b hb
      · exact hinput'

theorem sortDedup_eq_self {l : List ℤ} (h : List.Chain' (· < ·) l) :
    List.insertionSort (· ≤ ·) l.dedup = l := by
  have hpw : l.Pairwise (· < ·) := List.chain'_iff_pairwise.mp h
  have hnd : l.Nodup := hpw.imp ne_of_lt
  rw [List.dedup_eq_self.mpr hnd]
  exact List.Sorted.insertionSort_eq (hpw.imp le_of_lt)

theorem split_flatten (l : List ℤ) (step : ℤ) :
    (_split_list_into_contiguous_segments l step).flatten =
      List.insertionSort (· ≤ ·) l.dedup := by
  rw [_split_list_into_contiguous_segments, splitGo_flatten]
  simp

theorem split_flatten_of_sorted {l : List ℤ} (step : ℤ) (h : List.Chain' (· < ·) l) :
    (_split_list_into_contiguous_segments l step).flatten = l := by
  rw [split_flatten, sortDedup_eq_self h]

theorem split_flatten_nodup (l : List ℤ) (step : ℤ) :
    (_split_list_into_contiguous_segments l step).flatten.Nodup := by
  rw [split_flatten]
  exact ((List.perm_insertionSort _ _).nodup_iff).mpr l.nodup_dedup

theorem split_props (step : ℤ) (l : List ℤ)
    (h1 : List.Chain' (· < ·) l)
    (h2 : List.Chain' (fun a b => a + step ≤ b) l) :
    (∀ s ∈ _split_list_into_contiguous_segments l step, stepChain step s ∧ s ≠ []) ∧
      List.Chain' (segGap step) (_split_list_into_contiguous_segments l step) := by
  rw [_split_list_into_contiguous_segments, sortDedup_eq_self h1]
  cases l with
  | nil => simp [splitGo]
  | cons v rest =>
    rw [splitGo]
    have hcomb : List.Chain' (fun a b => a < b ∧ a + step ≤ b) (v :: rest) :=
      chain'_and h1 h2
    have := splitGo_spec step rest v ([] ++ [v]) [] (by simp) (by simp)
      (by simp [stepChain]) (by simp) (by simp [List.chain'_singleton]) hcomb
    simpa using this

theorem intRange_length (a : ℤ) : ∀ n : ℕ, (intRange a n).length = n := by
  intro n
  induction n generalizing a with
  | zero => rfl
  | succ n ih => simp [intRange, ih]

theorem mem_intRange {t : ℤ} : ∀ {n : ℕ} {a : ℤ}, t ∈ intRange a n ↔ a ≤ t ∧ t < a + n := by
  intro n
  induction n with
  | zero => simp [intRange]
  | succ n ih =>
    intro a
    rw [intRange, List.mem_cons, ih]
    omega

theorem intRange_chain' (a : ℤ) : ∀ n : ℕ, ∀ b : ℤ,
    List.Chain' (fun x y => y = x + 1) (intRange b n) := by
  intro n
  induction n with
  | zero => intro b; exact List.chain'_nil
  | succ n ih =>
    intro b
    cases n with
    | zero => exact List.chain'_singleton b
    | succ m =>
      rw [intRange, intRange, List.chain'_cons]
      exact ⟨rfl, by rw [← intRange] ; exact ih (b + 1)⟩

theorem intRange_nodup (a : ℤ) : ∀ n : ℕ, ∀ b : ℤ, (intRange b n).Nodup := by
  intro n
  induction n with
  | zero => intro b; exact List.nodup_nil
  | succ n ih =>
    intro b
    rw [intRange, List.nodup_cons]
    exact ⟨fun hb => by have := mem_intRange.mp hb; omega, ih (b + 1)⟩

theorem intRange_head? (a : ℤ) (n : ℕ) (h : 0 < n) : (intRange a n).head? = some a := by
  cases n with
  | zero => omega
  | succ n => rfl

theorem intRange_getLast? : ∀ (n : ℕ) (a : ℤ),
    (intRange a (n + 1)).getLast? = some (a + n) := by
  intro n
  induction n with
  | zero => intro a; simp [intRange]
  | succ n ih =>
    intro a
    rw [intRange, intRange, List.getLast?_cons_cons, ← intRange, ih]
    push_cast
    ring_nf

theorem intRange_chain'_lt (n : ℕ) (a : ℤ) : List.Chain' (· < ·) (intRange a n) := by
  have h := intRange_chain' a n a
  exact List.Chain'.imp (fun x y hxy => by omega) h

theorem filter_key_small {rows : List (ℤ × List (Option ℚ))}
    (h : (rows.map Prod.fst).Nodup) (t : ℤ) :
    rows.filter (fun r => r.1 = t) = [] ∨
      ∃ r, rows.filter (fun r => r.1 = t) = [r] := by
  induction rows with
  | nil => left; rfl
  | cons r rest ih =>
    rw [List.map_cons, List.nodup_cons] at h
    rw [List.filter_cons]
    by_cases hr : r.1 = t
    · right
      refine ⟨r, ?_⟩
      rw [if_pos (by simp [hr])]
      have : rest.filter (fun r => r.1 = t) = [] := by
        rw [List.filter_eq_nil_iff]
        intro b hb
        simp only [decide_eq_true_eq]
        intro hbt
        exact h.1 (by rw [← hr] at hbt; exact hbt ▸ List.mem_map_of_mem Prod.fst hb)
      rw [this]
    · rw [if_neg (by simp [hr])]
      exact ih h.2

theorem flatMap_eq_map {α β : Type} (f : α → List β) (g : α → β) :
    ∀ l : List α, (∀ t ∈ l, f t = [g t]) → l.flatMap f = l.map g := by
  intro l
  induction l with
  | nil => intro _; rfl
  | cons a l ih =>
    intro h
    rw [List.flatMap_cons, List.map_cons, h a (List.mem_cons_self a l),
      ih (fun t ht => h t (List.mem_cons_of_mem a ht))]
    rfl

theorem mergeOntoGrid_eq_map {rows : List (ℤ × List (Option ℚ))}
    (h : (rows.map Prod.fst).Nodup) (grid : List ℤ) (n : ℕ) :
    mergeOntoGrid grid rows n = grid.map (fun t => (t, rowAt rows n t)) := by
  apply flatMap_eq_map
  intro t _
  rcases filter_key_small h t with hf | ⟨r, hf⟩
  · rw [hf, rowAt, hf]
  · rw [hf, rowAt, hf]
    rfl

theorem merge_dup_len_notmem (r1 r2 : List (Option ℚ)) (t0 : ℤ) (n : ℕ) :
    ∀ g : List ℤ, t0 ∉ g →
      (mergeOntoGrid g [(t0, r1), (t0, r2)] n).length = g.length := by
  intro g
  induction g with
  | nil => intro _; rfl
  | cons t g ih =>
    intro h
    rw [List.mem_cons] at h
    push_neg at h
    have hstep : mergeOntoGrid (t :: g) [(t0, r1), (t0, r2)] n =
        (match List.filter (fun r => r.1 = t) [(t0, r1), (t0, r2)] with
         | [] => [(t, List.replicate n none)]
         | ms => ms.map (fun r => (t, r.2))) ++ mergeOntoGrid g [(t0, r1), (t0, r2)] n := rfl
    have hfilt : List.filter (fun r => r.1 = t) [(t0, r1), (t0, r2)] = [] := by
      simp [List.filter_cons, h.1]
    rw [hstep, hfilt]
    simp [ih h.2]

theorem merge_dup_len_mem (r1 r2 : List (Option ℚ)) (t0 : ℤ) (n : ℕ) :
    ∀ g : List ℤ, g.Nodup → t0 ∈ g →
      (mergeOntoGrid g [(t0, r1), (t0, r2)] n).length = g.length + 1 := by
  intro g
  induction g with
  | nil => intro _ h; exact absurd h (List.not_mem_nil t0)
  | cons t g ih =>
    intro hnd hmem
    rw [List.nodup_cons] at hnd
    have hstep : mergeOntoGrid (t :: g) [(t0, r1), (t0, r2)] n =
        (match List.filter (fun r => r.1 = t) [(t0, r1), (t0, r2)] with
         | [] => [(t, List.replicate n none)]
         | ms => ms.map (fun r => (t, r.2))) ++ mergeOntoGrid g [(t0, r1), (t0, r2)] n := rfl
    by_cases h : t0 = t
    · have hfilt : List.filter (fun r => r.1 = t) [(t0, r1), (t0, r2)] =
          [(t0, r1), (t0, r2)] := by
        simp [List.filter_cons, h]
      rw [hstep, hfilt]
      have hnotin : t0 ∉ g := h ▸ hnd.1
      simp [merge_dup_len_notmem r1 r2 t0 n g hnotin]
    · have hfilt : List.filter (fun r => r.1 = t) [(t0, r1), (t0, r2)] = [] := by
        simp [List.filter_cons, h]
      rw [hstep, hfilt]
      have hmem' : t0 ∈ g := by
        rcases List.mem_cons.mp hmem with h' | h'
        · exact absurd h' h
        · exact h'
      simp [ih hnd.2 hmem']

theorem hourlyGrid_length (y : ℕ) : (hourlyGrid y).length = hoursInYear y :=
  intRange_length _ _

theorem hoursInYear_pos (y : ℕ) : 0 < hoursInYear y := by
  rw [hoursInYear, daysInYear]
  split <;> omega

theorem hoursInYear_2019 : hoursInYear 2019 = 8760 := by decide

theorem shiftIndex_keys (k : ℤ) (raw : List (ℤ × List (Option ℚ))) :
    (shiftIndex k raw).map Prod.fst = (raw.map Prod.fst).map (· + k) := by
  rw [shiftIndex, List.map_map, List.map_map]
  rfl

theorem shiftIndex_keys_nodup (k : ℤ) {raw : List (ℤ × List (Option ℚ))}
    (h : (raw.map Prod.fst).Nodup) : ((shiftIndex k raw).map Prod.fst).Nodup := by
  rw [shiftIndex_keys]
  exact h.map (add_left_injective k)

/-- C1 (amended): for every target year and every raw observation table whose
timestamps are pairwise distinct — the time-zone shift adds a constant, so it
cannot create a collision that was not already present — the aligned table
produced by merging the shifted observations onto the canonical hourly grid
carries exactly the grid as its timestamp column, hence has exactly 8760 rows
(8784 in a leap year), strictly increasing hourly timestamps, no duplicate
rows, first timestamp at year-01-01T00:00 and last at year-12-31T23:00; grid
hours with no matching observation are rows of all-absent values and raw rows
outside the grid range are dropped. When a raw table does carry duplicate
timestamps, the pandas left-merge duplicates the matching grid row instead
(see the counterexample). -/
theorem C1_grid_alignment (y : ℕ) (k : ℤ) (raw : List (ℤ × List (Option ℚ))) (n : ℕ)
    (h : (raw.map Prod.fst).Nodup) :
    (_map_noaa_df_to_year (shiftIndex k raw) y n).map Prod.fst = hourlyGrid y
    ∧ (_map_noaa_df_to_year (shiftIndex k raw) y n).length =
        (if isLeapYear y then 8784 else 8760)
    ∧ List.Chain' (fun a b => b.1 = a.1 + 1) (_map_noaa_df_to_year (shiftIndex k raw) y n)
    ∧ (_map_noaa_df_to_year (shiftIndex k raw) y n).Nodup
    ∧ ((_map_noaa_df_to_year (shiftIndex k raw) y n).map Prod.fst).head? =
        some (yearStartHour y)
    ∧ ((_map_noaa_df_to_year (shiftIndex k raw) y n).map Prod.fst).getLast? =
        some (yearStartHour y + hoursInYear y - 1)
    ∧ (∀ t ∈ hourlyGrid y, (∀ r ∈ raw, r.1 + k ≠ t) →
        (t, List.replicate n none) ∈ _map_noaa_df_to_year (shiftIndex k raw) y n)
    ∧ (∀ e ∈ _map_noaa_df_to_year (shiftIndex k raw) y n, e.1 ∈ hourlyGrid y) := by
  have hkeys : ((shiftIndex k raw).map Prod.fst).Nodup := shiftIndex_keys_nodup k h
  have hmap : _map_noaa_df_to_year (shiftIndex k raw) y n =
      (hourlyGrid y).map (fun t => (t, rowAt (shiftIndex k raw) n t)) :=
    mergeOntoGrid_eq_map hkeys (hourlyGrid y) n
  have hfst : (_map_noaa_df_to_year (shiftIndex k raw) y n).map Prod.fst = hourlyGrid y := by
    rw [hmap, List.map_map]
    exact List.map_id _
  refine ⟨hfst, ?_, ?_, ?_, ?_, ?_, ?_, ?_⟩
  · rw [hmap, List.length_map, hourlyGrid_length, hoursInYear, daysInYear]
    split <;> norm_num
  · rw [hmap, List.chain'_map]
    exact List.Chain'.imp (fun a b hab => hab) (intRange_chain' (yearStartHour y) _ _)
  · rw [hmap]
    refine List.Nodup.map ?_ (intRange_nodup (yearStartHour y) _ _)
    intro t1 t2 ht
    exact congrArg Prod.fst ht
  · rw [hfst]
    exact intRange_head? _ _ (hoursInYear_pos y)
  · rw [hfst, hourlyGrid]
    have hpos := hoursInYear_pos y
    have hy : hoursInYear y = (hoursInYear y - 1) + 1 := by omega
    rw [hy, intRange_getLast?]
    congr 1
    have : ((hoursInYear y - 1 : ℕ) : ℤ) = (hoursInYear y : ℤ) - 1 := by
      push_cast [Nat.cast_sub hpos]
      ring
    omega
  · intro t ht hnomatch
    rw [hmap]
    have hrow : rowAt (shiftIndex k raw) n t = List.replicate n none := by
      rw [rowAt]
      have : (shiftIndex k raw).filter (fun r => r.1 = t) = [] := by
        rw [List.filter_eq_nil_iff]
        intro r hr
        simp only [decide_eq_true_eq]
        rw [shiftIndex, List.mem_map] at hr
        obtain ⟨r0, hr0, rfl⟩ := hr
        exact hnomatch r0 hr0
      rw [this]
    rw [← hrow]
    exact List.mem_map_of_mem _ ht
  · intro e he
    rw [hmap, List.mem_map] at he
    obtain ⟨t, ht, rfl⟩ := he
    exact ht

/-- Witness for C1: a concrete duplicate-free raw table and a concrete year
satisfy the hypotheses, and the aligned table has the non-leap-year row
count. -/
theorem C1_grid_alignment_witness :
    ([((0 : ℤ), [some (1 : ℚ)])].map Prod.fst).Nodup ∧
      (_map_noaa_df_to_year (shiftIndex 3 [((0 : ℤ), [some (1 : ℚ)])]) 2019 1).length =
        (if isLeapYear 2019 then 8784 else 8760) :=
  ⟨by simp, (C1_grid_alignment 2019 3 [((0 : ℤ), [some (1 : ℚ)])] 1 (by simp)).2.1⟩

/-- Counterexample for C1 as frozen: a raw table that carries the same
timestamp twice (a collision, which the constant time-zone shift preserves)
makes the left-merge onto the 2019 grid produce 8761 rows, not the 8760 the
claim asserts for a non-leap year. -/
theorem C1_counterexample :
    (_map_noaa_df_to_year
        (shiftIndex (-5)
          [(yearStartHour 2019 + 5, [some (1 : ℚ)]), (yearStartHour 2019 + 5, [some 2])])
        2019 1).length = 8761 ∧ isLeapYear 2019 = false := by
  constructor
  · have hshift : shiftIndex (-5)
        [(yearStartHour 2019 + 5, [some (1 : ℚ)]), (yearStartHour 2019 + 5, [some 2])] =
        [(yearStartHour 2019, [some (1 : ℚ)]), (yearStartHour 2019, [some 2])] := by
      simp [shiftIndex]
    rw [_map_noaa_df_to_year, hourlyGrid, hshift]
    rw [merge_dup_len_mem _ _ _ _ _ (intRange_nodup (yearStartHour 2019) _ _) ?_]
    · rw [intRange_length, hoursInYear_2019]
    · rw [mem_intRange]
      constructor
      · omega
      · have : hoursInYear 2019 = 8760 := hoursInYear_2019
        omega
  · rfl

/-- C2 (amended): for every step value and every sorted, duplicate-free list
of positions in which consecutive elements differ by at least `step` (as is
the case for distinct positions on a grid with pitch `step`, e.g. hourly
timestamps with a one-hour step), the in-order concatenation of the returned
segments equals the input list exactly, every consecutive pair inside a
segment differs by exactly `step`, and the difference between the last
element of one segment and the first element of the next is strictly greater
than `step`; the empty list yields an empty sequence, and
`split([1,2,5,6,7,9,11], step=1) = [[1,2],[5,6,7],[9],[11]]`. Without the
minimum-spacing condition the strict-gap property fails (see the
counterexample), the border gap being merely different from `step`. -/
theorem C2_split_segments (step : ℤ) (l : List ℤ)
    (h1 : List.Chain' (· < ·) l)
    (h2 : List.Chain' (fun a b => a + step ≤ b) l) :
    ((_split_list_into_contiguous_segments l step).flatten = l
      ∧ (∀ s ∈ _split_list_into_contiguous_segments l step, stepChain step s)
      ∧ List.Chain' (segGap step) (_split_list_into_contiguous_segments l step))
    ∧ _split_list_into_contiguous_segments [] step = []
    ∧ _split_list_into_contiguous_segments [1, 2, 5, 6, 7, 9, 11] 1 =
        [[1, 2], [5, 6, 7], [9], [11]] := by
  obtain ⟨hs, hg⟩ := split_props step l h1 h2
  refine ⟨⟨split_flatten_of_sorted step h1, fun s hs' => (hs s hs').1, hg⟩, ?_, ?_⟩
  · rfl
  · decide

/-- Witness for C2: the example list is sorted, duplicate-free and spaced by
at least the unit step, and segmenting then concatenating reproduces it. -/
theorem C2_split_segments_witness :
    (List.Chain' (· < ·) ([1, 2, 5, 6, 7, 9, 11] : List ℤ)
      ∧ List.Chain' (fun a b : ℤ => a + 1 ≤ b) [1, 2, 5, 6, 7, 9, 11])
    ∧ (_split_list_into_contiguous_segments [1, 2, 5, 6, 7, 9, 11] 1).flatten =
        [1, 2, 5, 6, 7, 9, 11] := by
  have hc1 : List.Chain' (· < ·) ([1, 2, 5, 6, 7, 9, 11] : List ℤ) := by
    norm_num [List.chain'_cons]
  have hc2 : List.Chain' (fun a b : ℤ => a + 1 ≤ b) [1, 2, 5, 6, 7, 9, 11] := by
    norm_num [List.chain'_cons]
  exact ⟨⟨hc1, hc2⟩, (C2_split_segments 1 _ hc1 hc2).1.1⟩

/-- Counterexample for C2 as frozen: with step 2 and the sorted duplicate-free
input `[0, 1]`, the function returns the two segments `[0]` and `[1]`, whose
border difference is `1`, which is not strictly greater than the step `2` —
the claimed strict-gap property fails when positions can lie closer together
than the step. -/
theorem C2_counterexample :
    _split_list_into_contiguous_segments [0, 1] 2 = [[0], [1]]
    ∧ ¬ List.Chain' (segGap 2) (_split_list_into_contiguous_segments [0, 1] 2)
    ∧ List.Chain' (· < ·) ([0, 1] : List ℤ) := by
  have hsplit : _split_list_into_contiguous_segments [0, 1] 2 = [[0], [1]] := by decide
  refine ⟨hsplit, ?_, by norm_num [List.chain'_cons]⟩
  rw [hsplit]
  intro hcontra
  have hgap := (List.chain'_cons.mp hcontra).1
  have h01 := hgap 0 (by simp) 1 (by simp)
  omega

/-- C7 (confirmed): for every sea-level pressure value (hPa×10) and every
elevation `h_m ≥ 0`, the conversion returns exactly the spec's composition —
convert to inHg, scale by `((288 − 0.0065·h)/288)^5.2561`, convert back to
Pa — and at the standard-atmosphere input `(10132.5, 0)` it returns
`10132.5/10 × 0.029529983071445 × 3386.389`, which is within `0.1` Pa of
`101325`. -/
theorem C7_station_pressure (Pa h_m : ℝ) (h : 0 ≤ h_m) :
    _convert_sea_level_pressure_to_station_pressure Pa h_m = specStationPressure Pa h_m
    ∧ _convert_sea_level_pressure_to_station_pressure 10132.5 0 =
        10132.5 / 10 * 0.029529983071445 * 3386.389
    ∧ |_convert_sea_level_pressure_to_station_pressure 10132.5 0 - 101325| < 1 / 10 := by
  have hval : _convert_sea_level_pressure_to_station_pressure 10132.5 0 =
      (10132.5 / 10 * 0.029529983071445 * 3386.389 : ℝ) := by
    have hb : ((288 - 0.0065 * (0 : ℝ)) / 288) = 1 := by norm_num
    unfold _convert_sea_level_pressure_to_station_pressure
    rw [hb, Real.one_rpow]
    ring
  refine ⟨?_, hval, ?_⟩
  · unfold _convert_sea_level_pressure_to_station_pressure specStationPressure
    ring_nf
  · rw [hval, abs_sub_lt_iff]
    constructor <;> norm_num

/-- Witness for C7: the zero elevation is admissible and the conversion
agrees with the spec's formula there. -/
theorem C7_station_pressure_witness :
    (0 : ℝ) ≤ 0 ∧
      _convert_sea_level_pressure_to_station_pressure 10132.5 0 =
        specStationPressure 10132.5 0 :=
  ⟨le_refl 0, (C7_station_pressure 10132.5 0 (le_refl 0)).1⟩

theorem finishBuild_exists {w : World} {dir : List Char} {tmy : TmyMeta} {year : ℕ}
    (pipelineOk : Bool) (h : pathJoin dir (amy_epw_file_name tmy year) ∈ w.fs) :
    finishBuild w dir tmy year pipelineOk =
      (.ok (pathJoin dir (amy_epw_file_name tmy year)), w) := by
  rw [finishBuild, if_pos h]

theorem finishBuild_ok {w : World} {dir : List Char} {tmy : TmyMeta} {year : ℕ}
    {pipelineOk : Bool} {p : List Char} {w' : World}
    (h : finishBuild w dir tmy year pipelineOk = (.ok p, w')) :
    p = pathJoin dir (amy_epw_file_name tmy year) ∧ p ∈ w'.fs ∧
      w'.tempdir = w.tempdir ∧ (∀ q ∈ w.fs, q ∈ w'.fs) ∧ (p ∈ w.fs → w' = w) := by
  rw [finishBuild] at h
  by_cases hex : pathJoin dir (amy_epw_file_name tmy year) ∈ w.fs
  · rw [if_pos hex] at h
    rw [Prod.mk.injEq] at h
    obtain ⟨h1, h2⟩ := h
    have hp : pathJoin dir (amy_epw_file_name tmy year) = p := by
      injection h1
    subst hp
    subst h2
    exact ⟨rfl, hex, rfl, fun q hq => hq, fun _ => rfl⟩
  · rw [if_neg hex] at h
    cases pipelineOk with
    | false => simp at h
    | true =>
      simp only [if_pos] at h
      rw [Prod.mk.injEq] at h
      obtain ⟨h1, h2⟩ := h
      have hp : pathJoin dir (amy_epw_file_name tmy year) = p := by
        injection h1
      subst hp
      subst h2
      refine ⟨rfl, List.mem_cons_self _ _, rfl, fun q hq => List.mem_cons_of_mem _ hq, ?_⟩
      intro hcontra
      exact absurd hcontra hex


theorem create_ok_inv {w : World} {tmy : TmyMeta} {year : ℕ}
    {amy_epw_dir amy_dir : Option (List Char)} {amy_files : Option (List Char × List Char)}
    {pipelineOk : Bool} {p : List Char} {w' : World}
    (h : create_amy_epw_file w tmy year amy_epw_dir amy_dir amy_files pipelineOk =
      (.ok p, w')) :
    ¬(amy_dir.isSome ∧ amy_files.isSome) ∧
      (∀ p1 p2, amy_files = some (p1, p2) → p1 ∈ w.fs ∧ p2 ∈ w.fs) ∧
      finishBuild w (amy_epw_dir.getD w.tempdir) tmy year pipelineOk = (.ok p, w') := by
  rw [create_amy_epw_file] at h
  by_cases hc : amy_dir.isSome ∧ amy_files.isSome
  · rw [if_pos hc] at h
    rw [Prod.mk.injEq] at h
    exact absurd h.1 (by simp)
  · rw [if_neg hc] at h
    refine ⟨hc, ?_⟩
    match amy_files with
    | none =>
      dsimp only at h
      exact ⟨fun p1 p2 hcontra => by simp at hcontra, h⟩
    | some (p1, p2) =>
      dsimp only at h
      by_cases h1 : p1 ∈ w.fs
      · rw [if_neg (not_not_intro h1)] at h
        by_cases h2 : p2 ∈ w.fs
        · rw [if_neg (not_not_intro h2)] at h
          refine ⟨?_, h⟩
          intro q1 q2 hq
          rw [Option.some_inj, Prod.mk.injEq] at hq
          obtain ⟨rfl, rfl⟩ := hq
          exact ⟨h1, h2⟩
        · rw [if_pos h2] at h
          rw [Prod.mk.injEq] at h
          exact absurd h.1 (by simp)
      · rw [if_pos h1] at h
        rw [Prod.mk.injEq] at h
        exact absurd h.1 (by simp)

/-- C8 (confirmed): a successful build returns the deterministically named
path `{country}_{state}_{city}.{station_number}_AMY_{year}.epw` (spaces
replaced by hyphens) under the output directory; when that file already
exists the call returns the path as success with the file system untouched;
and calling the build again with the same station, year and output directory
— whatever the data pipeline would do the second time — returns the same
path and does not rewrite the file. -/
theorem C8_idempotent (w : World) (tmy : TmyMeta) (year : ℕ)
    (amy_epw_dir amy_dir : Option (List Char)) (amy_files : Option (List Char × List Char))
    (pipelineOk : Bool) (p : List Char) (w' : World)
    (h : create_amy_epw_file w tmy year amy_epw_dir amy_dir amy_files pipelineOk =
      (.ok p, w')) :
    p = pathJoin (amy_epw_dir.getD w.tempdir) (amy_epw_file_name tmy year)
    ∧ (p ∈ w.fs → w' = w)
    ∧ (∀ pipelineOk' : Bool,
        create_amy_epw_file w' tmy year amy_epw_dir amy_dir amy_files pipelineOk' =
          (.ok p, w')) := by
  obtain ⟨hboth, hfiles, hfin⟩ := create_ok_inv h
  obtain ⟨hp, hmem, htemp, hgrow, hshort⟩ := finishBuild_ok hfin
  refine ⟨hp, hshort, ?_⟩
  intro pipelineOk'
  have hdir : amy_epw_dir.getD w'.tempdir = amy_epw_dir.getD w.tempdir := by
    rw [htemp]
  have hfin' : finishBuild w' (amy_epw_dir.getD w'.tempdir) tmy year pipelineOk' =
      (.ok p, w') := by
    rw [hdir]
    have hpm : pathJoin (amy_epw_dir.getD w.tempdir) (amy_epw_file_name tmy year) ∈
        w'.fs := by
      rw [← hp]
      exact hmem
    rw [finishBuild_exists pipelineOk' hpm, hp]
  rw [create_amy_epw_file, if_neg hboth]
  match amy_files with
  | none =>
    dsimp only
    exact hfin'
  | some (p1, p2) =>
    obtain ⟨hm1, hm2⟩ := hfiles p1 p2 rfl
    dsimp only
    rw [if_neg (not_not_intro (hgrow p1 hm1)), if_neg (not_not_intro (hgrow p2 hm2))]
    exact hfin'

/-- Witness for C8: a concrete first build (empty file system, pipeline
succeeding) returns a path, and the theorem applies to it, so the second call
returns the same path without touching the file system. -/
theorem C8_idempotent_witness :
    create_amy_epw_file ⟨[], ['t']⟩ ⟨['U', 'S'], ['W', 'A'], ['S', 'e', 'a'], ['7', '2', '7']⟩
        2019 none none none true =
      (.ok (pathJoin ['t']
        (amy_epw_file_name ⟨['U', 'S'], ['W', 'A'], ['S', 'e', 'a'], ['7', '2', '7']⟩ 2019)),
        ⟨[pathJoin ['t']
          (amy_epw_file_name ⟨['U', 'S'], ['W', 'A'], ['S', 'e', 'a'], ['7', '2', '7']⟩ 2019)],
          ['t']⟩)
    ∧ ∀ pipelineOk' : Bool,
        create_amy_epw_file
          ⟨[pathJoin ['t']
            (amy_epw_file_name ⟨['U', 'S'], ['W', 'A'], ['S', 'e', 'a'], ['7', '2', '7']⟩ 2019)],
            ['t']⟩
          ⟨['U', 'S'], ['W', 'A'], ['S', 'e', 'a'], ['7', '2', '7']⟩ 2019 none none none
          pipelineOk' =
        (.ok (pathJoin ['t']
          (amy_epw_file_name ⟨['U', 'S'], ['W', 'A'], ['S', 'e', 'a'], ['7', '2', '7']⟩ 2019)),
          ⟨[pathJoin ['t']
            (amy_epw_file_name ⟨['U', 'S'], ['W', 'A'], ['S', 'e', 'a'], ['7', '2', '7']⟩ 2019)],
            ['t']⟩) := by
  have hfirst : create_amy_epw_file ⟨[], ['t']⟩
      ⟨['U', 'S'], ['W', 'A'], ['S', 'e', 'a'], ['7', '2', '7']⟩ 2019 none none none true =
      (.ok (pathJoin ['t']
        (amy_epw_file_name ⟨['U', 'S'], ['W', 'A'], ['S', 'e', 'a'], ['7', '2', '7']⟩ 2019)),
        ⟨[pathJoin ['t']
          (amy_epw_file_name ⟨['U', 'S'], ['W', 'A'], ['S', 'e', 'a'], ['7', '2', '7']⟩ 2019)],
          ['t']⟩) := by
    rw [create_amy_epw_file, if_neg (by simp)]
    dsimp only
    rw [finishBuild, if_neg (List.not_mem_nil _)]
    rfl
  exact ⟨hfirst, (C8_idempotent _ _ _ _ _ _ _ _ _ hfirst).2.2⟩

/-- C9 (confirmed): the build raises the mode-conflict error — independently
of the file system, the pipeline outcome and every other argument, hence
before any pipeline work — whenever both `amy_dir` and `amy_files` are
supplied, and raises a missing-path error naming the offending path when
`amy_files` is supplied and either of its two paths does not exist. -/
theorem C9_input_validation (w : World) (tmy : TmyMeta) (year : ℕ)
    (amy_epw_dir amy_dir : Option (List Char)) (p1 p2 : List Char) (pipelineOk : Bool) :
    (amy_dir.isSome →
      create_amy_epw_file w tmy year amy_epw_dir amy_dir (some (p1, p2)) pipelineOk =
        (.error .bothAmySources, w))
    ∧ (p1 ∉ w.fs →
      create_amy_epw_file w tmy year amy_epw_dir none (some (p1, p2)) pipelineOk =
        (.error (.missingPath p1), w))
    ∧ (p1 ∈ w.fs → p2 ∉ w.fs →
      create_amy_epw_file w tmy year amy_epw_dir none (some (p1, p2)) pipelineOk =
        (.error (.missingPath p2), w)) := by
  refine ⟨?_, ?_, ?_⟩
  · intro hs
    rw [create_amy_epw_file, if_pos ⟨hs, rfl⟩]
  · intro h1
    rw [create_amy_epw_file, if_neg (by simp)]
    dsimp only
    rw [if_pos h1]
  · intro h1 h2
    rw [create_amy_epw_file, if_neg (by simp)]
    dsimp only
    rw [if_neg (not_not_intro h1), if_pos h2]

/-- Witness for C9: concrete conflicting modes and a concrete missing path
trigger the two validation errors. -/
theorem C9_input_validation_witness :
    create_amy_epw_file ⟨[], ['t']⟩ ⟨['U'], ['W'], ['S'], ['7']⟩ 2019 none (some ['d'])
        (some (['a'], ['b'])) true = (.error .bothAmySources, ⟨[], ['t']⟩)
    ∧ create_amy_epw_file ⟨[], ['t']⟩ ⟨['U'], ['W'], ['S'], ['7']⟩ 2019 none none
        (some (['a'], ['b'])) true = (.error (.missingPath ['a']), ⟨[], ['t']⟩) := by
  constructor
  · exact (C9_input_validation ⟨[], ['t']⟩ ⟨['U'], ['W'], ['S'], ['7']⟩ 2019 none
      (some ['d']) ['a'] ['b'] true).1 (by simp)
  · exact (C9_input_validation ⟨[], ['t']⟩ ⟨['U'], ['W'], ['S'], ['7']⟩ 2019 none
      none ['a'] ['b'] true).2.1 (by simp)

theorem setVal_length : ∀ (idx : List ℤ) (vs : List (Option ℚ)) (t : ℤ) (x : Option ℚ),
    (setVal idx vs t x).length = vs.length := by
  intro idx
  induction idx with
  | nil => intro vs t x; rfl
  | cons i is ih =>
    intro vs t x
    cases vs with
    | nil => rfl
    | cons v vs => simp [setVal, ih]

theorem lookupVal_setVal : ∀ (idx : List ℤ) (vs : List (Option ℚ)) (t q : ℤ) (x : Option ℚ),
    vs.length = idx.length →
    lookupVal idx (setVal idx vs t x) q =
      if q = t ∧ t ∈ idx then x else lookupVal idx vs q := by
  intro idx
  induction idx with
  | nil =>
    intro vs t q x hlen
    rw [List.length_nil, List.length_eq_zero] at hlen
    subst hlen
    simp [setVal, lookupVal]
  | cons i is ih =>
    intro vs t q x hlen
    cases vs with
    | nil => simp at hlen
    | cons v vs =>
      simp only [List.length_cons, Nat.succ_inj] at hlen
      rw [setVal, lookupVal, lookupVal]
      by_cases hiq : i = q
      · subst hiq
        rw [if_pos rfl, if_pos rfl]
        by_cases hit : i = t
        · subst hit
          rw [if_pos rfl, if_pos ⟨rfl, List.mem_cons_self i is⟩]
        · rw [if_neg hit, if_neg (by intro hc; exact hit hc.1)]
      · rw [if_neg hiq, if_neg hiq, ih vs t q x hlen]
        by_cases hqt : q = t
        · subst hqt
          by_cases hqin : q ∈ is
          · rw [if_pos ⟨rfl, hqin⟩, if_pos ⟨rfl, List.mem_cons_of_mem i hqin⟩]
          · rw [if_neg (by intro hc; exact hqin hc.2),
              if_neg (by
                intro hc
                rcases List.mem_cons.mp hc.2 with h' | h'
                · exact hiq h'.symm
                · exact hqin h')]
        · rw [if_neg (by intro hc; exact hqt hc.1), if_neg (by intro hc; exact hqt hc.1)]

theorem missingPositions_subset : ∀ (idx : List ℤ) (vs : List (Option ℚ)) (q : ℤ),
    q ∈ missingPositions idx vs → q ∈ idx := by
  intro idx
  induction idx with
  | nil => intro vs q h; cases vs <;> simp [missingPositions] at h
  | cons i is ih =>
    intro vs q h
    cases vs with
    | nil => simp [missingPositions] at h
    | cons v vs =>
      cases v with
      | none =>
        rw [missingPositions, List.mem_cons] at h
        rcases h with h | h
        · exact h ▸ List.mem_cons_self i is
        · exact List.mem_cons_of_mem i (ih vs q h)
      | some x =>
        rw [missingPositions] at h
        exact List.mem_cons_of_mem i (ih vs q h)

theorem lookupVal_of_missing : ∀ (idx : List ℤ) (vs : List (Option ℚ)) (q : ℤ),
    idx.Nodup → q ∈ missingPositions idx vs → lookupVal idx vs q = none := by
  intro idx
  induction idx with
  | nil => intro vs q _ h; cases vs <;> simp [missingPositions] at h
  | cons i is ih =>
    intro vs q hnd h
    rw [List.nodup_cons] at hnd
    cases vs with
    | nil => simp [missingPositions] at h
    | cons v vs =>
      cases v with
      | none =>
        rw [missingPositions, List.mem_cons] at h
        rcases h with h | h
        · rw [lookupVal, if_pos h.symm]
        · have hq : q ∈ is := missingPositions_subset is vs q h
          rw [lookupVal, if_neg (by intro hc; exact hnd.1 (hc ▸ hq)), ih vs q hnd.2 h]
      | some x =>
        rw [missingPositions] at h
        have hq : q ∈ is := missingPositions_subset is vs q h
        rw [lookupVal, if_neg (by intro hc; exact hnd.1 (hc ▸ hq)), ih vs q hnd.2 h]

theorem filterMap_congr {α β : Type} (f g : α → Option β) :
    ∀ l : List α, (∀ a ∈ l, f a = g a) → l.filterMap f = l.filterMap g := by
  intro l
  induction l with
  | nil => intro _; rfl
  | cons a l ih =>
    intro h
    rw [List.filterMap_cons, List.filterMap_cons, h a (List.mem_cons_self a l),
      ih (fun b hb => h b (List.mem_cons_of_mem a hb))]

theorem windowSamples_congr {idx : List ℤ} {vs1 vs2 : List (Option ℚ)} {t range istep : ℤ}
    (h : ∀ q ∈ windowPositions t range istep, lookupVal idx vs1 q = lookupVal idx vs2 q) :
    windowSamples idx vs1 t range istep = windowSamples idx vs2 t range istep := by
  rw [windowSamples, windowSamples]
  apply filterMap_congr
  intro q hq
  rw [h q hq]

theorem foldl_imputeOnce_length (idx : List ℤ) (range istep : ℤ) :
    ∀ (l : List ℤ) (vs : List (Option ℚ)),
      (l.foldl (imputeOnce idx range istep) vs).length = vs.length := by
  intro l
  induction l with
  | nil => intro vs; rfl
  | cons p l ih =>
    intro vs
    rw [List.foldl_cons, ih, imputeOnce, setVal_length]

theorem imputeColumn_eq_foldl (idx : List ℤ) (range istep : ℤ) (mI : ℕ) :
    ∀ (segs : List (List ℤ)) (vals : List (Option ℚ)),
      imputeColumn idx range istep mI segs vals =
        (interiorPositions mI segs).foldl (imputeOnce idx range istep) vals := by
  intro segs
  induction segs with
  | nil => intro vals; rfl
  | cons s segs ih =>
    intro vals
    rw [imputeColumn, List.foldl_cons, interiorPositions, List.flatMap_cons,
      List.foldl_append, ← interiorPositions, ← imputeColumn, ← ih]
    by_cases hs : s.length ≤ mI
    · rw [if_pos hs, if_pos hs]
      rfl
    · rw [if_neg hs, if_neg hs]

theorem imputeFold_spec (idx : List ℤ) (range istep : ℤ) (ints : List ℤ)
    (orig : List (Option ℚ)) (hnd : ints.Nodup) (hsub : ∀ p ∈ ints, p ∈ idx)
    (hno : ∀ p ∈ ints, ∀ q ∈ windowPositions p range istep, q ≠ p → q ∉ ints) :
    ∀ (todo done : List ℤ) (cur : List (Option ℚ)),
      ints = done ++ todo →
      cur.length = idx.length →
      (∀ q, lookupVal idx cur q =
        if q ∈ done then nanmean (windowSamples idx orig q range istep)
        else lookupVal idx orig q) →
      ∀ q, lookupVal idx (todo.foldl (imputeOnce idx range istep) cur) q =
        if q ∈ ints then nanmean (windowSamples idx orig q range istep)
        else lookupVal idx orig q := by
  intro todo
  induction todo with
  | nil =>
    intro done cur hsplit _ hinv q
    rw [List.foldl_nil, hinv q, hsplit, List.append_nil]
  | cons p todo ih =>
    intro done cur hsplit hlen hinv q
    have hpints : p ∈ ints := by
      rw [hsplit]
      exact List.mem_append.mpr (Or.inr (List.mem_cons_self p todo))
    have hpdone : p ∉ done := by
      intro hc
      rw [hsplit] at hnd
      have := List.disjoint_of_nodup_append hnd
      exact this hc (List.mem_cons_self p todo)
    have hwin : windowSamples idx cur p range istep =
        windowSamples idx orig p range istep := by
      apply windowSamples_congr
      intro r hr
      rw [hinv r]
      by_cases hrp : r = p
      · rw [if_neg (by rw [hrp]; exact hpdone)]
      · have hrints : r ∉ ints := hno p hpints r hr hrp
        rw [if_neg (by intro hc; exact hrints (by rw [hsplit] at *; exact List.mem_append.mpr (Or.inl hc)))]
    rw [List.foldl_cons]
    apply ih (done ++ [p])
    · rw [hsplit, List.append_assoc]
      rfl
    · rw [imputeOnce, setVal_length, hlen]
    · intro r
      rw [imputeOnce, lookupVal_setVal idx cur p r _ (by rw [hlen]), hwin]
      by_cases hrp : r = p
      · rw [if_pos ⟨hrp, hsub p hpints⟩,
          if_pos (by rw [hrp]; exact List.mem_append.mpr (Or.inr (List.mem_cons_self p []))),
          hrp]
      · rw [if_neg (by intro hc; exact hrp hc.1), hinv r]
        by_cases hrd : r ∈ done
        · rw [if_pos hrd, if_pos (List.mem_append.mpr (Or.inl hrd))]
        · rw [if_neg hrd,
            if_neg (by
              intro hc
              rcases List.mem_append.mp hc with h' | h'
              · exact hrd h'
              · exact hrp (List.mem_singleton.mp h'))]

theorem interiorPositions_sublist (mI : ℕ) :
    ∀ segs : List (List ℤ), (interiorPositions mI segs).Sublist segs.flatten := by
  intro segs
  induction segs with
  | nil => exact List.Sublist.refl []
  | cons s segs ih =>
    rw [interiorPositions, List.flatMap_cons, List.flatten_cons, ← interiorPositions]
    apply List.Sublist.append _ ih
    by_cases hs : s.length ≤ mI
    · rw [if_pos hs]
      exact List.nil_sublist s
    · rw [if_neg hs]
      exact ((s.drop 1).dropLast_sublist).trans (List.drop_sublist 1 s)

theorem mem_split_iff_mem (m : List ℤ) (step : ℤ) (q : ℤ) :
    q ∈ (_split_list_into_contiguous_segments m step).flatten ↔ q ∈ m := by
  rw [split_flatten]
  rw [(List.perm_insertionSort (· ≤ ·) m.dedup).mem_iff]
  exact List.mem_dedup

theorem interiors_nodup (mI : ℕ) (m : List ℤ) (step : ℤ) :
    (interiorPositions mI (_split_list_into_contiguous_segments m step)).Nodup :=
  (split_flatten_nodup m step).sublist (interiorPositions_sublist mI _)

theorem interiors_subset_missing {mI : ℕ} {m : List ℤ} {step : ℤ} {p : ℤ}
    (h : p ∈ interiorPositions mI (_split_list_into_contiguous_segments m step)) :
    p ∈ m :=
  (mem_split_iff_mem m step p).mp ((interiorPositions_sublist mI _).mem h)

/-- Pointwise description of the imputation pass on one column, valid when no
interior position's window reaches another interior position: the value at
each interior position is the window mean over the column's original values,
and every other position is untouched. -/
theorem imputeColumn_pointwise (idx : List ℤ) (step range istep : ℤ) (mI : ℕ)
    (vals : List (Option ℚ)) (hnd : idx.Nodup) (hlen : vals.length = idx.length)
    (hno : ∀ p ∈ interiorPositions mI
        (_split_list_into_contiguous_segments (missingPositions idx vals) step),
      ∀ q ∈ windowPositions p range istep, q ≠ p →
        q ∉ interiorPositions mI
          (_split_list_into_contiguous_segments (missingPositions idx vals) step)) :
    ∀ q, lookupVal idx
        (imputeColumn idx range istep mI
          (_split_list_into_contiguous_segments (missingPositions idx vals) step) vals) q =
      if q ∈ interiorPositions mI
          (_split_list_into_contiguous_segments (missingPositions idx vals) step) then
        nanmean (windowSamples idx vals q range istep)
      else lookupVal idx vals q := by
  intro q
  rw [imputeColumn_eq_foldl]
  exact imputeFold_spec idx range istep _ vals
    (interiors_nodup mI _ step)
    (fun p hp => missingPositions_subset idx vals p (interiors_subset_missing hp))
    hno _ [] vals rfl hlen (fun r => by rw [if_neg (List.not_mem_nil r)]) q

theorem maxRunLen_nil : maxRunLen [] = 0 := rfl

theorem processColumn_ok (idx : List ℤ) (step : ℤ) (mI mImp : ℕ) (range istep : ℤ)
    (name : String) (vals : List (Option ℚ))
    (h : columnMaxRun idx step vals ≤ mImp) :
    processColumn idx step mI mImp range istep name vals =
      .ok (imputeColumn idx range istep mI
        (_split_list_into_contiguous_segments (missingPositions idx vals) step) vals) := by
  rw [columnMaxRun] at h
  rw [processColumn]
  by_cases h0 : (_split_list_into_contiguous_segments (missingPositions idx vals) step).length = 0
  · rw [if_pos h0]
    have hemp : _split_list_into_contiguous_segments (missingPositions idx vals) step = [] :=
      List.length_eq_zero.mp h0
    rw [hemp]
    rfl
  · rw [if_neg h0, if_neg (by omega)]

theorem processColumn_err (idx : List ℤ) (step : ℤ) (mI mImp : ℕ) (range istep : ℤ)
    (name : String) (vals : List (Option ℚ))
    (h : mImp < columnMaxRun idx step vals) :
    processColumn idx step mI mImp range istep name vals =
      .error ⟨name, columnMaxRun idx step vals, mImp⟩ := by
  rw [columnMaxRun] at h ⊢
  rw [processColumn]
  have h0 : ¬ (_split_list_into_contiguous_segments (missingPositions idx vals) step).length = 0 := by
    intro hc
    rw [List.length_eq_zero.mp hc, maxRunLen_nil] at h
    omega
  rw [if_neg h0, if_pos h]

theorem normalizeVals_nil : ∀ vals : List (Option ℚ), normalizeVals [] vals = vals := by
  intro vals
  induction vals with
  | nil => rfl
  | cons v vs ih =>
    rw [normalizeVals, List.map_cons, ← normalizeVals, ih]
    cases v with
    | none => rfl
    | some x => simp

theorem normalizeVals_length (mv : List ℚ) (vals : List (Option ℚ)) :
    (normalizeVals mv vals).length = vals.length := by
  rw [normalizeVals, List.length_map]

theorem hmv_single {idx : List ℤ} {step : ℤ} {mI mImp : ℕ} {range istep : ℤ}
    {name : String} {vals out : List (Option ℚ)} {mv : List ℚ}
    (hok : processColumn idx step mI mImp range istep name (normalizeVals mv vals) =
      .ok out) :
    _handle_missing_values ⟨idx, [(name, vals)]⟩ step mI mImp range istep mv =
      .ok ⟨idx, [(name, interpolateColumn out)]⟩ := by
  rw [_handle_missing_values]
  simp only [List.map_cons, List.map_nil]
  rw [hmvColumns, hok]
  rfl

theorem hmv_single_err {idx : List ℤ} {step : ℤ} {mI mImp : ℕ} {range istep : ℤ}
    {name : String} {vals : List (Option ℚ)} {mv : List ℚ} {e : HMVError}
    (herr : processColumn idx step mI mImp range istep name (normalizeVals mv vals) =
      .error e) :
    _handle_missing_values ⟨idx, [(name, vals)]⟩ step mI mImp range istep mv =
      .error (e, ⟨idx, [(name, normalizeVals mv vals)]⟩) := by
  rw [_handle_missing_values]
  simp only [List.map_cons, List.map_nil]
  rw [hmvColumns, herr]

theorem lookup_ext : ∀ (idx : List ℤ), idx.Nodup → ∀ (vs1 vs2 : List (Option ℚ)),
    vs1.length = idx.length → vs2.length = idx.length →
    (∀ q ∈ idx, lookupVal idx vs1 q = lookupVal idx vs2 q) → vs1 = vs2 := by
  intro idx
  induction idx with
  | nil =>
    intro _ vs1 vs2 h1 h2 _
    rw [List.length_nil, List.length_eq_zero] at h1 h2
    rw [h1, h2]
  | cons i is ih =>
    intro hnd vs1 vs2 h1 h2 hq
    rw [List.nodup_cons] at hnd
    cases vs1 with
    | nil => simp at h1
    | cons v1 vs1 =>
      cases vs2 with
      | nil => simp at h2
      | cons v2 vs2 =>
        simp only [List.length_cons, Nat.succ_inj] at h1 h2
        have hv : v1 = v2 := by
          have hh := hq i (List.mem_cons_self i is)
          rw [lookupVal, lookupVal, if_pos rfl, if_pos rfl] at hh
          exact hh
        have ht : vs1 = vs2 := by
          apply ih hnd.2 vs1 vs2 h1 h2
          intro q hqin
          have hh := hq q (List.mem_cons_of_mem i hqin)
          rw [lookupVal, lookupVal, if_neg (fun hc : i = q => hnd.1 (hc.symm ▸ hqin)),
            if_neg (fun hc : i = q => hnd.1 (hc.symm ▸ hqin))] at hh
          exact hh
        rw [hv, ht]

theorem lookupVal_zipWith (f : ℤ → Option ℚ → Option ℚ) :
    ∀ (idx : List ℤ) (vs : List (Option ℚ)), vs.length = idx.length → ∀ q ∈ idx,
      lookupVal idx (List.zipWith f idx vs) q = f q (lookupVal idx vs q) := by
  intro idx
  induction idx with
  | nil => intro vs _ q hq; simp at hq
  | cons i is ih =>
    intro vs hlen q hq
    cases vs with
    | nil => simp at hlen
    | cons v vs =>
      simp only [List.length_cons, Nat.succ_inj] at hlen
      rw [List.zipWith_cons_cons, lookupVal, lookupVal]
      by_cases hiq : i = q
      · rw [if_pos hiq, if_pos hiq, hiq]
      · rw [if_neg hiq, if_neg hiq]
        apply ih vs hlen q
        rcases List.mem_cons.mp hq with h | h
        · exact absurd h.symm hiq
        · exact h

theorem nanmean_eq_none {rs : List (Option ℚ)} (h : ∀ s ∈ rs, s = none) :
    nanmean rs = none := by
  rw [nanmean]
  have hemp : rs.filterMap id = [] := by
    rw [List.filterMap_eq_nil_iff]
    exact h
  simp [hemp]

theorem mem_interiors_cases (mI : ℕ) : ∀ (segs : List (List ℤ)), segs.flatten.Nodup →
    ∀ seg ∈ segs, ∀ q ∈ seg,
      (q ∈ interiorPositions mI segs ↔
        ¬ seg.length ≤ mI ∧ q ∈ (seg.drop 1).dropLast) := by
  intro segs
  induction segs with
  | nil =>
    intro _ seg hseg
    simp at hseg
  | cons s rest ih =>
    intro hnd seg hseg q hq
    rw [List.flatten_cons] at hnd
    have hdisj := List.disjoint_of_nodup_append hnd
    have hrest_nd : rest.flatten.Nodup := hnd.of_append_right
    rw [interiorPositions, List.flatMap_cons, ← interiorPositions, List.mem_append]
    rcases List.mem_cons.mp hseg with rfl | hseg'
    · constructor
      · intro hmem
        rcases hmem with h | h
        · by_cases hlen : seg.length ≤ mI
          · rw [if_pos hlen] at h
            simp at h
          · rw [if_neg hlen] at h
            exact ⟨hlen, h⟩
        · exfalso
          exact hdisj hq ((interiorPositions_sublist mI rest).mem h)
      · intro hcond
        left
        rw [if_neg hcond.1]
        exact hcond.2
    · have hqflat : q ∈ rest.flatten := List.mem_flatten.mpr ⟨seg, hseg', hq⟩
      constructor
      · intro hmem
        rcases hmem with h | h
        · exfalso
          have hq_s : q ∈ s := by
            by_cases hlen : s.length ≤ mI
            · rw [if_pos hlen] at h
              simp at h
            · rw [if_neg hlen] at h
              exact (((s.drop 1).dropLast_sublist).trans (List.drop_sublist 1 s)).mem h
          exact hdisj hq_s hqflat
        · exact (ih hrest_nd seg hseg' q hq).mp h
      · intro hcond
        right
        exact (ih hrest_nd seg hseg' q hq).mpr hcond

theorem head_not_interior {mI : ℕ} {segs : List (List ℤ)} (hnd : segs.flatten.Nodup)
    {seg : List ℤ} (hseg : seg ∈ segs) {a : ℤ} (ha : seg.head? = some a) :
    a ∉ interiorPositions mI segs := by
  intro hc
  have hq : a ∈ seg := List.mem_of_mem_head? (ha ▸ rfl)
  have hint := (mem_interiors_cases mI segs hnd seg hseg a hq).mp hc
  have hsnd : seg.Nodup := hnd.sublist (List.sublist_flatten_of_mem hseg)
  cases seg with
  | nil => simp at ha
  | cons b t =>
    rw [List.head?_cons, Option.some_inj] at ha
    rw [List.nodup_cons] at hsnd
    have hmem : a ∈ t := (t.dropLast_sublist).mem (by simpa using hint.2)
    exact hsnd.1 (ha ▸ hmem)

theorem getLast_not_dropLast {l : List ℤ} (hnd : l.Nodup) (h : l ≠ []) :
    l.getLast h ∉ l.dropLast := by
  intro hc
  have heq := List.dropLast_append_getLast h
  rw [← heq] at hnd
  rw [List.nodup_append] at hnd
  exact hnd.2.2 hc (List.mem_singleton.mpr rfl)

theorem last_not_interior {mI : ℕ} {segs : List (List ℤ)} (hnd : segs.flatten.Nodup)
    {seg : List ℤ} (hseg : seg ∈ segs) {a : ℤ} (ha : seg.getLast? = some a) :
    a ∉ interiorPositions mI segs := by
  intro hc
  have hne : seg ≠ [] := by
    intro hcon
    rw [hcon] at ha
    simp at ha
  have hlast : seg.getLast hne = a := by
    rw [List.getLast?_eq_getLast seg hne, Option.some_inj] at ha
    exact ha
  have hq : a ∈ seg := hlast ▸ List.getLast_mem hne
  have hint := (mem_interiors_cases mI segs hnd seg hseg a hq).mp hc
  have hsnd : seg.Nodup := hnd.sublist (List.sublist_flatten_of_mem hseg)
  cases seg with
  | nil => exact hne rfl
  | cons b t =>
    cases t with
    | nil => simp at hint
    | cons c t' =>
      have hmem : a ∈ (c :: t').dropLast := by simpa using hint.2
      have hlast' : (c :: t').getLast (by simp) = a := by
        rw [← hlast]
        exact (List.getLast_cons (by simp)).symm
      rw [List.nodup_cons] at hsnd
      exact getLast_not_dropLast hsnd.2 (by simp) (hlast' ▸ hmem)

/-- C4 (amended): for every segment of missing values with
`max_to_interpolate < L ≤ max_to_impute`, the imputation pass sets every
position of the segment except the first and last to the mean of the
non-absent values found at offsets `-range, -range+istep, …, +range` from
that position (offsets outside the table's index skipped), where the values
are read from the column's state at the moment the position is processed;
provided no interior position's window reaches another interior position of
the column, those reads coincide with the column's pre-imputation values, as
stated here. The segment's first and last positions are left absent for the
later interpolation pass. Without the window-separation proviso an
imputation read can observe a value freshly imputed earlier in the pass (see
the counterexample). -/
theorem C4_imputation (idx : List ℤ) (step range istep : ℤ) (mI mImp : ℕ)
    (name : String) (vals : List (Option ℚ))
    (hnd : idx.Nodup) (hlen : vals.length = idx.length) (histep : 1 ≤ istep)
    (hceil : columnMaxRun idx step vals ≤ mImp)
    (hno : ∀ p ∈ interiorPositions mI
        (_split_list_into_contiguous_segments (missingPositions idx vals) step),
      ∀ q ∈ windowPositions p range istep, q ≠ p →
        q ∉ interiorPositions mI
          (_split_list_into_contiguous_segments (missingPositions idx vals) step)) :
    ∃ out, processColumn idx step mI mImp range istep name vals = .ok out ∧
      ∀ seg ∈ _split_list_into_contiguous_segments (missingPositions idx vals) step,
        mI < seg.length →
          (∀ p ∈ (seg.drop 1).dropLast,
            lookupVal idx out p = nanmean (windowSamples idx vals p range istep))
          ∧ (∀ a ∈ seg.head?, lookupVal idx out a = none)
          ∧ (∀ a ∈ seg.getLast?, lookupVal idx out a = none) := by
  refine ⟨_, processColumn_ok idx step mI mImp range istep name vals hceil, ?_⟩
  intro seg hseg hlong
  have hfnd : (_split_list_into_contiguous_segments
      (missingPositions idx vals) step).flatten.Nodup := split_flatten_nodup _ step
  refine ⟨?_, ?_, ?_⟩
  · intro p hp
    have hpseg : p ∈ seg :=
      (((seg.drop 1).dropLast_sublist).trans (List.drop_sublist 1 seg)).mem hp
    have hpint : p ∈ interiorPositions mI
        (_split_list_into_contiguous_segments (missingPositions idx vals) step) :=
      (mem_interiors_cases mI _ hfnd seg hseg p hpseg).mpr ⟨by omega, hp⟩
    rw [imputeColumn_pointwise idx step range istep mI vals hnd hlen hno p, if_pos hpint]
  · intro a ha
    have hnotint : a ∉ interiorPositions mI
        (_split_list_into_contiguous_segments (missingPositions idx vals) step) :=
      head_not_interior hfnd hseg (Option.mem_def.mp ha)
    rw [imputeColumn_pointwise idx step range istep mI vals hnd hlen hno a,
      if_neg hnotint]
    apply lookupVal_of_missing idx vals a hnd
    exact (mem_split_iff_mem _ step a).mp
      (List.mem_flatten.mpr ⟨seg, hseg, List.mem_of_mem_head? ha⟩)
  · intro a ha
    have hnotint : a ∉ interiorPositions mI
        (_split_list_into_contiguous_segments (missingPositions idx vals) step) :=
      last_not_interior hfnd hseg (Option.mem_def.mp ha)
    rw [imputeColumn_pointwise idx step range istep mI vals hnd hlen hno a,
      if_neg hnotint]
    apply lookupVal_of_missing idx vals a hnd
    exact (mem_split_iff_mem _ step a).mp
      (List.mem_flatten.mpr ⟨seg, hseg, List.mem_of_getLast?_eq_some (Option.mem_def.mp ha)⟩)

theorem splitGo_run : ∀ (k : ℕ) (p : ℤ) (cur : List ℤ) (segs : List (List ℤ)),
    cur ≠ [] →
    splitGo 1 (intRange (p + 1) k) (some p) cur segs = segs ++ [cur ++ intRange (p + 1) k] := by
  intro k
  induction k with
  | zero =>
    intro p cur segs hne
    rw [intRange, splitGo, if_pos (List.length_pos.mpr hne), List.append_nil]
  | succ k ih =>
    intro p cur segs hne
    rw [intRange, splitGo, if_neg (by omega)]
    have harg : p + 1 + 1 = (p + 1) + 1 := rfl
    rw [ih (p + 1) (cur ++ [p + 1]) segs (by simp)]
    rw [List.append_assoc]
    rfl

theorem split_intRange (a : ℤ) (L : ℕ) (hL : 0 < L) :
    _split_list_into_contiguous_segments (intRange a L) 1 = [intRange a L] := by
  rw [_split_list_into_contiguous_segments, sortDedup_eq_self (intRange_chain'_lt L a)]
  cases L with
  | zero => omega
  | succ L =>
    rw [intRange, splitGo]
    rw [splitGo_run L a ([] ++ [a]) [] (by simp)]
    simp

theorem missingPositions_nonefree : ∀ (B : List (Option ℚ)) (idx : List ℤ),
    (∀ x ∈ B, x ≠ none) → missingPositions idx B = [] := by
  intro B
  induction B with
  | nil => intro idx _; cases idx <;> rfl
  | cons x B ih =>
    intro idx h
    cases idx with
    | nil => rfl
    | cons i is =>
      cases x with
      | none => exact absurd rfl (h none (List.mem_cons_self none B))
      | some v =>
        rw [missingPositions]
        exact ih is (fun y hy => h y (List.mem_cons_of_mem _ hy))

theorem missingPositions_append_nonefree :
    ∀ (A : List (Option ℚ)) (rest : List (Option ℚ)) (a : ℤ) (m : ℕ),
      (∀ x ∈ A, x ≠ none) →
      missingPositions (intRange a (A.length + m)) (A ++ rest) =
        missingPositions (intRange (a + A.length) m) rest := by
  intro A
  induction A with
  | nil =>
    intro rest a m _
    simp [intRange]
  | cons x A ih =>
    intro rest a m h
    have hlen : (x :: A).length + m = (A.length + m) + 1 := by
      simp [List.length_cons]
      omega
    rw [hlen, intRange]
    cases x with
    | none => exact absurd rfl (h none (List.mem_cons_self none A))
    | some v =>
      rw [List.cons_append, missingPositions]
      rw [ih rest (a + 1) m (fun y hy => h y (List.mem_cons_of_mem _ hy))]
      have harg : a + 1 + (A.length : ℤ) = a + ((some v :: A).length : ℤ) := by
        simp [List.length_cons]
        ring
      rw [harg]

theorem missingPositions_run :
    ∀ (L : ℕ) (B : List (Option ℚ)) (c : ℤ),
      (∀ x ∈ B, x ≠ none) →
      missingPositions (intRange c (L + B.length)) (List.replicate L none ++ B) =
        intRange c L := by
  intro L
  induction L with
  | zero =>
    intro B c h
    rw [List.replicate_zero, List.nil_append, Nat.zero_add, intRange,
      missingPositions_nonefree B _ h]
  | succ L ih =>
    intro B c h
    have hlen : (L + 1) + B.length = (L + B.length) + 1 := by omega
    rw [hlen, intRange, List.replicate_succ, List.cons_append, missingPositions,
      ih B (c + 1) h, intRange]

theorem getD_append_left : ∀ (A rest : List (Option ℚ)) (i : ℕ), i < A.length →
    (A ++ rest).getD i none = A.getD i none := by
  intro A
  induction A with
  | nil => intro rest i h; simp at h
  | cons x A ih =>
    intro rest i h
    cases i with
    | zero => rfl
    | succ i =>
      rw [List.cons_append, List.getD_cons_succ, List.getD_cons_succ]
      exact ih rest i (by simpa using h)

theorem getD_append_skip : ∀ (A rest : List (Option ℚ)) (i : ℕ),
    (A ++ rest).getD (A.length + i) none = rest.getD i none := by
  intro A
  induction A with
  | nil => intro rest i; simp
  | cons x A ih =>
    intro rest i
    have : (x :: A).length + i = (A.length + i) + 1 := by
      simp [List.length_cons]
      omega
    rw [this, List.cons_append, List.getD_cons_succ]
    exact ih rest i

theorem prevValid_found (vals : List (Option ℚ)) (j : ℕ) (vj : ℚ)
    (hj : vals.getD j none = some vj) :
    ∀ p : ℕ, j < p → (∀ i, j < i → i < p → vals.getD i none = none) →
      prevValid vals p = some (j, vj) := by
  intro p
  induction p with
  | zero => intro h; omega
  | succ p ih =>
    intro hlt hgap
    rw [prevValid]
    by_cases hpj : p = j
    · rw [hpj, hj]
    · rw [hgap p (by omega) (by omega)]
      exact ih (by omega) (fun i h1 h2 => hgap i h1 (by omega))

theorem nextValidFrom_found (vals : List (Option ℚ)) (k : ℕ) (vk : ℚ)
    (hk : vals.getD k none = some vk) :
    ∀ (fuel j : ℕ), j ≤ k → (∀ i, j ≤ i → i < k → vals.getD i none = none) →
      k - j < fuel → nextValidFrom vals fuel j = some (k, vk) := by
  intro fuel
  induction fuel with
  | zero => intro j _ _ h; omega
  | succ fuel ih =>
    intro j hle hgap hfuel
    rw [nextValidFrom]
    by_cases hjk : j = k
    · rw [hjk, hk]
    · rw [hgap j (le_refl j) (by omega)]
      exact ih (j + 1) (by omega) (fun i h1 h2 => hgap i (by omega) h2) (by omega)

theorem interp_between {vj vk t : ℚ} (h0 : 0 ≤ t) (h1 : t ≤ 1) :
    min vj vk ≤ vj + (vk - vj) * t ∧ vj + (vk - vj) * t ≤ max vj vk := by
  rcases le_total vj vk with h | h
  · rw [min_eq_left h, max_eq_right h]
    constructor <;> nlinarith
  · rw [min_eq_right h, max_eq_left h]
    constructor <;> nlinarith

theorem interpolateColumn_getD (vals : List (Option ℚ)) (i : ℕ) (h : i < vals.length) :
    (interpolateColumn vals).getD i none = interpAt vals i := by
  rw [interpolateColumn, List.getD_eq_getElem?_getD, List.getElem?_map,
    List.getElem?_range h]
  rfl

theorem processColumn_short {idx : List ℤ} {step : ℤ} {mI mImp : ℕ} {range istep : ℤ}
    {name : String} {vals : List (Option ℚ)} {seg : List ℤ}
    (hsplit : _split_list_into_contiguous_segments (missingPositions idx vals) step = [seg])
    (hmi : seg.length ≤ mI) (hmp : seg.length ≤ mImp) :
    processColumn idx step mI mImp range istep name vals = .ok vals := by
  rw [processColumn, hsplit]
  have hrun : maxRunLen [seg] = seg.length := by
    rw [maxRunLen]
    simp
  rw [if_neg (by simp), if_neg (by rw [hrun]; omega), imputeColumn, List.foldl_cons,
    if_pos hmi, List.foldl_nil]

theorem replicate_none_getD : ∀ (L j : ℕ),
    (List.replicate L (none : Option ℚ)).getD j none = none := by
  intro L
  induction L with
  | zero => intro j; cases j <;> rfl
  | succ L ih =>
    intro j
    cases j with
    | zero => rfl
    | succ j =>
      rw [List.replicate_succ, List.getD_cons_succ]
      exact ih j

theorem structured_getD (A B : List (Option ℚ)) (vL vR : ℚ) (L : ℕ) :
    (∀ i, i < A.length →
      (A ++ ([some vL] ++ (List.replicate L none ++ ([some vR] ++ B)))).getD i none =
        A.getD i none)
    ∧ (A ++ ([some vL] ++ (List.replicate L none ++ ([some vR] ++ B)))).getD A.length none =
        some vL
    ∧ (∀ i, A.length + 1 ≤ i → i < A.length + 1 + L →
      (A ++ ([some vL] ++ (List.replicate L none ++ ([some vR] ++ B)))).getD i none = none)
    ∧ (A ++ ([some vL] ++ (List.replicate L none ++ ([some vR] ++ B)))).getD
        (A.length + 1 + L) none = some vR
    ∧ (∀ j, (A ++ ([some vL] ++ (List.replicate L none ++ ([some vR] ++ B)))).getD
        (A.length + 1 + L + 1 + j) none = B.getD j none) := by
  refine ⟨?_, ?_, ?_, ?_, ?_⟩
  · intro i h
    exact getD_append_left A _ i h
  · have h := getD_append_skip A ([some vL] ++ (List.replicate L none ++ ([some vR] ++ B))) 0
    rw [Nat.add_zero] at h
    rw [h]
    rfl
  · intro i h1 h2
    have hi : i = A.length + ((i - A.length - 1) + 1) := by omega
    rw [hi, getD_append_skip A]
    rw [List.singleton_append, List.getD_cons_succ]
    rw [getD_append_left _ _ _ (by rw [List.length_replicate]; omega)]
    exact replicate_none_getD L _
  · have hi : A.length + 1 + L = A.length + (L + 1) := by omega
    rw [hi, getD_append_skip A]
    rw [List.singleton_append, List.getD_cons_succ]
    have h := getD_append_skip (List.replicate L none) ([some vR] ++ B) 0
    rw [Nat.add_zero, List.length_replicate] at h
    rw [h]
    rfl
  · intro j
    have hi : A.length + 1 + L + 1 + j = A.length + ((L + (j + 1)) + 1) := by omega
    rw [hi, getD_append_skip A]
    rw [List.singleton_append, List.getD_cons_succ]
    have h := getD_append_skip (List.replicate L none) ([some vR] ++ B) (j + 1)
    rw [List.length_replicate] at h
    rw [h]
    rw [List.singleton_append, List.getD_cons_succ]

theorem getD_mem_of_lt {l : List (Option ℚ)} {n : ℕ} (h : n < l.length) :
    l.getD n none ∈ l := by
  rw [List.getD_eq_getElem?_getD, List.getElem?_eq_getElem h, Option.getD_some]
  exact l.getElem_mem h

theorem interpAt_run (A B : List (Option ℚ)) (vL vR : ℚ) (L : ℕ) (i : ℕ)
    (h1 : A.length + 1 ≤ i) (h2 : i < A.length + 1 + L) :
    interpAt (A ++ ([some vL] ++ (List.replicate L none ++ ([some vR] ++ B)))) i =
      some (vL + (vR - vL) *
        (((i : ℚ) - (A.length : ℚ)) /
          (((A.length + 1 + L : ℕ) : ℚ) - (A.length : ℚ)))) := by
  obtain ⟨g1, g2, g3, g4, g5⟩ := structured_getD A B vL vR L
  have hprev : prevValid (A ++ ([some vL] ++ (List.replicate L none ++ ([some vR] ++ B)))) i =
      some (A.length, vL) :=
    prevValid_found _ A.length vL g2 i (by omega)
      (fun i' hi1 hi2 => g3 i' (by omega) (by omega))
  have hnext : nextValid (A ++ ([some vL] ++ (List.replicate L none ++ ([some vR] ++ B)))) i =
      some (A.length + 1 + L, vR) := by
    rw [nextValid]
    apply nextValidFrom_found _ _ vR g4 _ (i + 1) (by omega)
      (fun i' hi1 hi2 => g3 i' (by omega) hi2)
    have hlen : (A ++ ([some vL] ++ (List.replicate L none ++ ([some vR] ++ B)))).length =
        A.length + 1 + L + 1 + B.length := by
      simp
      omega
    omega
  rw [interpAt, g3 i h1 h2, hprev, hnext]

/-- C6 (amended): a column whose missing values form a single contiguous run
of length at most `max_records_to_interpolate` — with the run bounded by
non-absent values on both sides and the interpolation cap not exceeding the
imputation ceiling — is left untouched by the imputation pass, and the final
linear interpolation pass fills every missing position with a value lying
between the run's immediate non-absent neighbors; the whole column ends up
free of absent values. A run at the very start of the column is not filled
(pandas' default forward-direction interpolation leaves leading absences, see
the counterexample), and a trailing run is filled by clamping to the last
present value, so the two-sided-neighbors proviso is necessary. -/
theorem C6_interpolation (a : ℤ) (A B : List (Option ℚ)) (vL vR : ℚ) (L mI mImp : ℕ)
    (range istep : ℤ) (name : String)
    (hA : ∀ x ∈ A, x ≠ none) (hB : ∀ x ∈ B, x ≠ none)
    (hL : 0 < L) (hmi : L ≤ mI) (hmp : L ≤ mImp) :
    _handle_missing_values
        ⟨intRange a ((A.length + 1) + (L + (1 + B.length))),
          [(name, A ++ ([some vL] ++ (List.replicate L none ++ ([some vR] ++ B))))]⟩
        1 mI mImp range istep [] =
      .ok ⟨intRange a ((A.length + 1) + (L + (1 + B.length))),
        [(name, interpolateColumn
          (A ++ ([some vL] ++ (List.replicate L none ++ ([some vR] ++ B)))))]⟩
    ∧ (∀ i, A.length + 1 ≤ i → i < A.length + 1 + L →
        ∃ v, (interpolateColumn
            (A ++ ([some vL] ++ (List.replicate L none ++ ([some vR] ++ B))))).getD i none =
          some v ∧ min vL vR ≤ v ∧ v ≤ max vL vR)
    ∧ (∀ i, i < (A ++ ([some vL] ++ (List.replicate L none ++ ([some vR] ++ B)))).length →
        (interpolateColumn
          (A ++ ([some vL] ++ (List.replicate L none ++ ([some vR] ++ B))))).getD i none ≠
          none) := by
  obtain ⟨g1, g2, g3, g4, g5⟩ := structured_getD A B vL vR L
  have hVlen : (A ++ ([some vL] ++ (List.replicate L none ++ ([some vR] ++ B)))).length =
      A.length + 1 + L + 1 + B.length := by
    simp
    omega
  have hmiss : missingPositions (intRange a ((A.length + 1) + (L + (1 + B.length))))
      (A ++ ([some vL] ++ (List.replicate L none ++ ([some vR] ++ B)))) =
      intRange (a + (A.length + 1)) L := by
    have hgroup : A ++ ([some vL] ++ (List.replicate L none ++ ([some vR] ++ B))) =
        (A ++ [some vL]) ++ (List.replicate L none ++ ([some vR] ++ B)) := by
      rw [List.append_assoc]
    have hn : (A.length + 1) + (L + (1 + B.length)) =
        (A ++ [some vL]).length + (L + ([some vR] ++ B).length) := by
      simp
      omega
    rw [hgroup, hn]
    rw [missingPositions_append_nonefree (A ++ [some vL]) _ a _
      (fun x hx => by
        rcases List.mem_append.mp hx with h' | h'
        · exact hA x h'
        · rw [List.mem_singleton.mp h']
          exact Option.some_ne_none vL)]
    rw [missingPositions_run L ([some vR] ++ B) _
      (fun x hx => by
        rcases List.mem_append.mp hx with h' | h'
        · rw [List.mem_singleton.mp h']
          exact Option.some_ne_none vR
        · exact hB x h')]
    have hcast : a + ((A ++ [some vL]).length : ℤ) = a + ((A.length : ℤ) + 1) := by
      simp
    rw [hcast]
  have hsplit : _split_list_into_contiguous_segments
      (missingPositions (intRange a ((A.length + 1) + (L + (1 + B.length))))
        (A ++ ([some vL] ++ (List.replicate L none ++ ([some vR] ++ B))))) 1 =
      [intRange (a + (A.length + 1)) L] := by
    rw [hmiss]
    exact split_intRange _ L hL
  have hproc : processColumn (intRange a ((A.length + 1) + (L + (1 + B.length)))) 1 mI mImp
      range istep name (A ++ ([some vL] ++ (List.replicate L none ++ ([some vR] ++ B)))) =
      .ok (A ++ ([some vL] ++ (List.replicate L none ++ ([some vR] ++ B)))) :=
    processColumn_short hsplit (by rw [intRange_length]; exact hmi)
      (by rw [intRange_length]; exact hmp)
  have hrun : ∀ i, A.length + 1 ≤ i → i < A.length + 1 + L →
      ∃ v, (interpolateColumn
          (A ++ ([some vL] ++ (List.replicate L none ++ ([some vR] ++ B))))).getD i none =
        some v ∧ min vL vR ≤ v ∧ v ≤ max vL vR := by
    intro i hi1 hi2
    have hilt : i < (A ++ ([some vL] ++ (List.replicate L none ++ ([some vR] ++ B)))).length := by
      rw [hVlen]
      omega
    rw [interpolateColumn_getD _ i hilt, interpAt_run A B vL vR L i hi1 hi2]
    refine ⟨_, rfl, ?_⟩
    have hm1 : ((A.length : ℚ) + 1) ≤ (i : ℚ) := by exact_mod_cast hi1
    have hm2 : (i : ℚ) < (A.length : ℚ) + 1 + (L : ℚ) := by exact_mod_cast hi2
    have hden : (((A.length + 1 + L : ℕ) : ℚ) - (A.length : ℚ)) = (L : ℚ) + 1 := by
      push_cast
      ring
    rw [hden]
    have hLpos : (0 : ℚ) < (L : ℚ) + 1 := by positivity
    apply interp_between
    · apply div_nonneg _ (le_of_lt hLpos)
      linarith
    · rw [div_le_one hLpos]
      linarith
  refine ⟨?_, hrun, ?_⟩
  · apply hmv_single
    rw [normalizeVals_nil]
    exact hproc
  · intro i hi
    by_cases hc1 : i < A.length
    · rw [interpolateColumn_getD _ i hi, interpAt, g1 i hc1]
      have hmem : A.getD i none ∈ A := getD_mem_of_lt hc1
      obtain ⟨x, hx⟩ := Option.ne_none_iff_exists'.mp (hA _ hmem)
      rw [hx]
      exact Option.some_ne_none x
    · by_cases hc2 : i = A.length
      · rw [interpolateColumn_getD _ i hi, interpAt, hc2, g2]
        exact Option.some_ne_none vL
      · by_cases hc3 : i < A.length + 1 + L
        · obtain ⟨v, hv, _⟩ := hrun i (by omega) hc3
          rw [hv]
          exact Option.some_ne_none v
        · by_cases hc4 : i = A.length + 1 + L
          · rw [interpolateColumn_getD _ i hi, interpAt, hc4, g4]
            exact Option.some_ne_none vR
          · have hj : i = A.length + 1 + L + 1 + (i - (A.length + 1 + L + 1)) := by omega
            have hjlt : i - (A.length + 1 + L + 1) < B.length := by
              rw [hVlen] at hi
              omega
            rw [interpolateColumn_getD _ i hi, interpAt, hj, g5]
            have hmem : B.getD (i - (A.length + 1 + L + 1)) none ∈ B := getD_mem_of_lt hjlt
            obtain ⟨x, hx⟩ := Option.ne_none_iff_exists'.mp (hB _ hmem)
            rw [hx]
            exact Option.some_ne_none x

/-- C5 (amended): the code imputes a column's interior positions in ascending
index order reading the live column state, so an imputation read CAN observe
a value freshly imputed for an earlier position (see the counterexample);
when no interior position's imputation window reaches another interior
position of the column, every read observes pre-imputation values and the
pass coincides with the snapshot-based, order-independent imputation that
computes each interior value from the column's original values only. -/
theorem C5_snapshot_reads (idx : List ℤ) (step range istep : ℤ) (mI : ℕ)
    (vals : List (Option ℚ)) (hnd : idx.Nodup) (hlen : vals.length = idx.length)
    (hno : ∀ p ∈ interiorPositions mI
        (_split_list_into_contiguous_segments (missingPositions idx vals) step),
      ∀ q ∈ windowPositions p range istep, q ≠ p →
        q ∉ interiorPositions mI
          (_split_list_into_contiguous_segments (missingPositions idx vals) step)) :
    imputeColumn idx range istep mI
        (_split_list_into_contiguous_segments (missingPositions idx vals) step) vals =
      imputeColumnSnapshot idx range istep
        (interiorPositions mI
          (_split_list_into_contiguous_segments (missingPositions idx vals) step)) vals := by
  apply lookup_ext idx hnd
  · rw [imputeColumn_eq_foldl, foldl_imputeOnce_length, hlen]
  · rw [imputeColumnSnapshot, List.length_zipWith, hlen, min_self]
  · intro q hq
    rw [imputeColumn_pointwise idx step range istep mI vals hnd hlen hno q]
    rw [imputeColumnSnapshot,
      lookupVal_zipWith
        (fun i v => if i ∈ interiorPositions mI
            (_split_list_into_contiguous_segments (missingPositions idx vals) step) then
          nanmean (windowSamples idx vals i range istep) else v) idx vals hlen q hq]

/-- Witness for C5: a concrete column with a single medium run whose interior
window stays clear of other interiors satisfies the hypotheses, and the live
pass equals the snapshot pass on it. -/
theorem C5_snapshot_reads_witness :
    imputeColumn [0, 1, 2, 3, 4] 1 1 1
        (_split_list_into_contiguous_segments
          (missingPositions [0, 1, 2, 3, 4] [some 1, none, none, none, some 2]) 1)
        [some 1, none, none, none, some 2] =
      imputeColumnSnapshot [0, 1, 2, 3, 4] 1 1
        (interiorPositions 1
          (_split_list_into_contiguous_segments
            (missingPositions [0, 1, 2, 3, 4] [some 1, none, none, none, some 2]) 1))
        [some 1, none, none, none, some 2] :=
  C5_snapshot_reads [0, 1, 2, 3, 4] 1 1 1 1 [some 1, none, none, none, some 2]
    (by decide) rfl (by decide)

/-- C10 (confirmed): when every sample in an interior position's imputation
window is absent, the imputation pass does not raise — the raise decision
depends only on the longest run length — and writes the absent marker (the
mean of an empty collection) at that position, which the final interpolation
pass then handles like any other remaining absence. -/
theorem C10_all_absent_window (idx : List ℤ) (step range istep : ℤ) (mI mImp : ℕ)
    (name : String) (vals : List (Option ℚ)) (p : ℤ)
    (hnd : idx.Nodup) (hlen : vals.length = idx.length)
    (hceil : columnMaxRun idx step vals ≤ mImp)
    (hno : ∀ r ∈ interiorPositions mI
        (_split_list_into_contiguous_segments (missingPositions idx vals) step),
      ∀ q ∈ windowPositions r range istep, q ≠ r →
        q ∉ interiorPositions mI
          (_split_list_into_contiguous_segments (missingPositions idx vals) step))
    (hp : p ∈ interiorPositions mI
      (_split_list_into_contiguous_segments (missingPositions idx vals) step))
    (habs : ∀ s ∈ windowSamples idx vals p range istep, s = none) :
    ∃ out, processColumn idx step mI mImp range istep name vals = .ok out ∧
      lookupVal idx out p = none ∧
      _handle_missing_values ⟨idx, [(name, vals)]⟩ step mI mImp range istep [] =
        .ok ⟨idx, [(name, interpolateColumn out)]⟩ := by
  refine ⟨_, processColumn_ok idx step mI mImp range istep name vals hceil, ?_, ?_⟩
  · rw [imputeColumn_pointwise idx step range istep mI vals hnd hlen hno p, if_pos hp,
      nanmean_eq_none habs]
  · apply hmv_single
    rw [normalizeVals_nil]
    exact processColumn_ok idx step mI mImp range istep name vals hceil

/-- Witness for C10: a run of three absences with a one-hour window makes the
single interior position's window all-absent; the pass succeeds, leaves the
position absent, and the interpolation pass runs over the result. -/
theorem C10_all_absent_window_witness :
    ∃ out, processColumn [0, 1, 2, 3, 4] 1 2 3 1 1 "c"
        [some 1, none, none, none, some 2] = .ok out ∧
      lookupVal [0, 1, 2, 3, 4] out 2 = none ∧
      _handle_missing_values ⟨[0, 1, 2, 3, 4], [("c", [some 1, none, none, none, some 2])]⟩
          1 2 3 1 1 [] =
        .ok ⟨[0, 1, 2, 3, 4], [("c", interpolateColumn out)]⟩ :=
  C10_all_absent_window [0, 1, 2, 3, 4] 1 1 1 2 3 "c"
    [some 1, none, none, none, some 2] 2 (by decide) rfl (by decide) (by decide)
    (by decide) (by decide)

/-- Witness for C4: a concrete single-run column satisfying the hypotheses of
the amended claim — the interior value becomes the window mean over the
original values, and the run's endpoints stay absent. -/
theorem C4_imputation_witness :
    ∃ out, processColumn [0, 1, 2, 3, 4] 1 1 3 1 1 "c"
        [some 1, none, none, none, some 2] = .ok out ∧
      ∀ seg ∈ _split_list_into_contiguous_segments
          (missingPositions [0, 1, 2, 3, 4] [some 1, none, none, none, some 2]) 1,
        1 < seg.length →
          (∀ p ∈ (seg.drop 1).dropLast,
            lookupVal [0, 1, 2, 3, 4] out p =
              nanmean (windowSamples [0, 1, 2, 3, 4]
                [some 1, none, none, none, some 2] p 1 1))
          ∧ (∀ a ∈ seg.head?, lookupVal [0, 1, 2, 3, 4] out a = none)
          ∧ (∀ a ∈ seg.getLast?, lookupVal [0, 1, 2, 3, 4] out a = none) :=
  C4_imputation [0, 1, 2, 3, 4] 1 1 1 1 3 "c" [some 1, none, none, none, some 2]
    (by decide) rfl (by decide) (by decide) (by decide)

/-- Counterexample for C4 as frozen: with a single run `[1,2,3,4]`, window
radius 2 and window step 1, the interior position 3 is imputed AFTER position
2, and its window read at position 2 observes the value freshly imputed
there; the resulting value (2, the mean of the fresh 1 and the observed 3)
differs from the mean of the pre-imputation values found at its window
offsets (3 alone, since everything else was absent). -/
theorem C4_counterexample :
    processColumn [0, 1, 2, 3, 4, 5] 1 1 4 2 1 "c"
        [some 1, none, none, none, none, some 3] =
      .ok [some 1, none, some 1, some 2, none, some 3]
    ∧ [1, 2, 3, 4] ∈ _split_list_into_contiguous_segments
        (missingPositions [0, 1, 2, 3, 4, 5]
          [some (1 : ℚ), none, none, none, none, some 3]) 1
    ∧ (3 : ℤ) ∈ (List.drop 1 [(1 : ℤ), 2, 3, 4]).dropLast
    ∧ lookupVal [0, 1, 2, 3, 4, 5] [some 1, none, some 1, some 2, none, some 3] 3 ≠
        nanmean (windowSamples [0, 1, 2, 3, 4, 5]
          [some 1, none, none, none, none, some 3] 3 2 1) := by
  have hsplit : _split_list_into_contiguous_segments
      (missingPositions [0, 1, 2, 3, 4, 5]
        [some (1 : ℚ), none, none, none, none, some 3]) 1 = [[1, 2, 3, 4]] := by
    decide
  have hceil : columnMaxRun [0, 1, 2, 3, 4, 5] 1
      [some (1 : ℚ), none, none, none, none, some 3] ≤ 4 := by decide
  have hws2 : windowSamples [0, 1, 2, 3, 4, 5]
      [some (1 : ℚ), none, none, none, none, some 3] 2 2 1 =
      [some 1, none, none, none, none] := by decide
  have hnm2 : nanmean [some (1 : ℚ), none, none, none, none] = some 1 := by
    simp [nanmean, List.filterMap_cons]
  have hstep1 : imputeOnce [0, 1, 2, 3, 4, 5] 2 1
      [some (1 : ℚ), none, none, none, none, some 3] 2 =
      [some 1, none, some 1, none, none, some 3] := by
    rw [imputeOnce, hws2, hnm2]
    decide
  have hws3 : windowSamples [0, 1, 2, 3, 4, 5]
      [some (1 : ℚ), none, some 1, none, none, some 3] 3 2 1 =
      [none, some 1, none, none, some 3] := by decide
  have hnm3 : nanmean [none, some (1 : ℚ), none, none, some 3] = some 2 := by
    simp [nanmean, List.filterMap_cons]
    norm_num
  have hstep2 : imputeOnce [0, 1, 2, 3, 4, 5] 2 1
      [some (1 : ℚ), none, some 1, none, none, some 3] 3 =
      [some 1, none, some 1, some 2, none, some 3] := by
    rw [imputeOnce, hws3, hnm3]
    decide
  have hint : (List.drop 1 [(1 : ℤ), 2, 3, 4]).dropLast = [2, 3] := by decide
  have himp : imputeColumn [0, 1, 2, 3, 4, 5] 2 1 1 [[1, 2, 3, 4]]
      [some (1 : ℚ), none, none, none, none, some 3] =
      [some 1, none, some 1, some 2, none, some 3] := by
    rw [imputeColumn]
    simp only [List.foldl_cons, List.foldl_nil]
    rw [if_neg (by decide), hint, List.foldl_cons, hstep1, List.foldl_cons, hstep2,
      List.foldl_nil]
  have hws3' : windowSamples [0, 1, 2, 3, 4, 5]
      [some (1 : ℚ), none, none, none, none, some 3] 3 2 1 =
      [none, none, none, none, some 3] := by decide
  have hnm3' : nanmean [none, none, none, none, some (3 : ℚ)] = some 3 := by
    simp [nanmean, List.filterMap_cons]
  refine ⟨?_, by rw [hsplit]; exact List.mem_singleton.mpr rfl, by decide, ?_⟩
  · rw [processColumn_ok _ _ _ _ _ _ _ _ hceil, hsplit, himp]
  · rw [hws3', hnm3']
    have hlk : lookupVal [0, 1, 2, 3, 4, 5]
        [some (1 : ℚ), none, some 1, some 2, none, some 3] 3 = some 2 := by decide
    rw [hlk]
    intro hc
    rw [Option.some_inj] at hc
    norm_num at hc

/-- Counterexample for C5 as frozen: on a single medium run with overlapping
windows, the live pass writes 4 at position 3 — its window read observed the
value 2 freshly imputed at position 2 — while the snapshot pass computing
from pre-imputation values only writes 6 there; the code's result therefore
is not computed from the column's original values alone. -/
theorem C5_counterexample :
    imputeColumn [0, 1, 2, 3, 4, 5] 2 1 1
        (_split_list_into_contiguous_segments
          (missingPositions [0, 1, 2, 3, 4, 5]
            [some (2 : ℚ), none, none, none, none, some 6]) 1)
        [some (2 : ℚ), none, none, none, none, some 6] ≠
      imputeColumnSnapshot [0, 1, 2, 3, 4, 5] 2 1
        (interiorPositions 1
          (_split_list_into_contiguous_segments
            (missingPositions [0, 1, 2, 3, 4, 5]
              [some (2 : ℚ), none, none, none, none, some 6]) 1))
        [some (2 : ℚ), none, none, none, none, some 6] := by
  have hsplit : _split_list_into_contiguous_segments
      (missingPositions [0, 1, 2, 3, 4, 5]
        [some (2 : ℚ), none, none, none, none, some 6]) 1 = [[1, 2, 3, 4]] := by
    decide
  have hints : interiorPositions 1 [[(1 : ℤ), 2, 3, 4]] = [2, 3] := by decide
  have hws2 : windowSamples [0, 1, 2, 3, 4, 5]
      [some (2 : ℚ), none, none, none, none, some 6] 2 2 1 =
      [some 2, none, none, none, none] := by decide
  have hnm2 : nanmean [some (2 : ℚ), none, none, none, none] = some 2 := by
    simp [nanmean, List.filterMap_cons]
  have hws3 : windowSamples [0, 1, 2, 3, 4, 5]
      [some (2 : ℚ), none, none, none, none, some 6] 3 2 1 =
      [none, none, none, none, some 6] := by decide
  have hnm3 : nanmean [none, none, none, none, some (6 : ℚ)] = some 6 := by
    simp [nanmean, List.filterMap_cons]
  have hstep1 : imputeOnce [0, 1, 2, 3, 4, 5] 2 1
      [some (2 : ℚ), none, none, none, none, some 6] 2 =
      [some 2, none, some 2, none, none, some 6] := by
    rw [imputeOnce, hws2, hnm2]
    decide
  have hws3' : windowSamples [0, 1, 2, 3, 4, 5]
      [some (2 : ℚ), none, some 2, none, none, some 6] 3 2 1 =
      [none, some 2, none, none, some 6] := by decide
  have hnm3' : nanmean [none, some (2 : ℚ), none, none, some 6] = some 4 := by
    simp [nanmean, List.filterMap_cons]
    norm_num
  have hstep2 : imputeOnce [0, 1, 2, 3, 4, 5] 2 1
      [some (2 : ℚ), none, some 2, none, none, some 6] 3 =
      [some 2, none, some 2, some 4, none, some 6] := by
    rw [imputeOnce, hws3', hnm3']
    decide
  have hint : (List.drop 1 [(1 : ℤ), 2, 3, 4]).dropLast = [2, 3] := by decide
  have hlive : imputeColumn [0, 1, 2, 3, 4, 5] 2 1 1 [[1, 2, 3, 4]]
      [some (2 : ℚ), none, none, none, none, some 6] =
      [some 2, none, some 2, some 4, none, some 6] := by
    rw [imputeColumn]
    simp only [List.foldl_cons, List.foldl_nil]
    rw [if_neg (by decide), hint, List.foldl_cons, hstep1, List.foldl_cons, hstep2,
      List.foldl_nil]
  have hsnap : imputeColumnSnapshot [0, 1, 2, 3, 4, 5] 2 1 [2, 3]
      [some (2 : ℚ), none, none, none, none, some 6] =
      [some 2, none, some 2, some 6, none, some 6] := by
    rw [imputeColumnSnapshot]
    simp only [List.zipWith_cons_cons, List.zipWith_nil_left]
    rw [if_neg (by decide), if_neg (by decide), if_pos (by decide), if_pos (by decide),
      if_neg (by decide), if_neg (by decide), hws2, hnm2, hws3, hnm3]
  rw [hsplit, hints, hlive, hsnap]
  intro hc
  simp only [List.cons.injEq] at hc
  have h4 := hc.2.2.2.1
  rw [Option.some_inj] at h4
  norm_num at h4

/-- C3, evaluated at the failing input: with columns A (one medium run,
imputable) and B (a run of 4 against a ceiling of 3), `_handle_missing_values`
raises the exception reporting column B, its observed longest run 4 and the
ceiling 3 — but the table at the moment of the raise is NOT the input table:
column A has already been imputed in place (position 2 now holds 3/2),
contradicting the function's own docstring, which promises the frame "will be
left unchanged" when an oversized gap exists. The third conjunct shows the
orchestrator writes no output file when the pipeline stage fails. -/
theorem C3_partial_mutation :
    _handle_missing_values
        ⟨[0, 1, 2, 3, 4, 5, 6],
          [("A", [some 1, none, none, none, some 2, some 5, some 7]),
            ("B", [some 1, none, none, none, none, some 2, some 3])]⟩
        1 1 3 2 2 [] =
      .error (⟨"B", 4, 3⟩,
        ⟨[0, 1, 2, 3, 4, 5, 6],
          [("A", [some 1, none, some (3 / 2), none, some 2, some 5, some 7]),
            ("B", [some 1, none, none, none, none, some 2, some 3])]⟩)
    ∧ ([some (1 : ℚ), none, some (3 / 2), none, some 2, some 5, some 7] ≠
        [some 1, none, none, none, some 2, some 5, some 7])
    ∧ create_amy_epw_file ⟨[], ['t']⟩ ⟨['U'], ['W'], ['S'], ['7']⟩ 2019 none none none
        false = (.error .pipelineFailed, ⟨[], ['t']⟩) := by
  have hsplitA : _split_list_into_contiguous_segments
      (missingPositions [0, 1, 2, 3, 4, 5, 6]
        [some (1 : ℚ), none, none, none, some 2, some 5, some 7]) 1 = [[1, 2, 3]] := by
    decide
  have hwsA : windowSamples [0, 1, 2, 3, 4, 5, 6]
      [some (1 : ℚ), none, none, none, some 2, some 5, some 7] 2 2 2 =
      [some 1, none, some 2] := by decide
  have hnmA : nanmean [some (1 : ℚ), none, some 2] = some (3 / 2) := by
    simp [nanmean, List.filterMap_cons]
    norm_num
  have hstepA : imputeOnce [0, 1, 2, 3, 4, 5, 6] 2 2
      [some (1 : ℚ), none, none, none, some 2, some 5, some 7] 2 =
      [some 1, none, some (3 / 2), none, some 2, some 5, some 7] := by
    rw [imputeOnce, hwsA, hnmA]
    simp [setVal]
  have hintA : (List.drop 1 [(1 : ℤ), 2, 3]).dropLast = [2] := by decide
  have hprocA : processColumn [0, 1, 2, 3, 4, 5, 6] 1 1 3 2 2 "A"
      [some (1 : ℚ), none, none, none, some 2, some 5, some 7] =
      .ok [some 1, none, some (3 / 2), none, some 2, some 5, some 7] := by
    rw [processColumn_ok _ _ _ _ _ _ _ _ (by decide), hsplitA, imputeColumn]
    simp only [List.foldl_cons, List.foldl_nil]
    rw [if_neg (by decide), hintA, List.foldl_cons, hstepA, List.foldl_nil]
  have hprocB : processColumn [0, 1, 2, 3, 4, 5, 6] 1 1 3 2 2 "B"
      [some (1 : ℚ), none, none, none, none, some 2, some 3] =
      .error ⟨"B", 4, 3⟩ := by
    rw [processColumn_err _ _ _ _ _ _ _ _ (by decide)]
    have hrun : columnMaxRun [0, 1, 2, 3, 4, 5, 6] 1
        [some (1 : ℚ), none, none, none, none, some 2, some 3] = 4 := by decide
    rw [hrun]
  refine ⟨?_, by decide, ?_⟩
  · rw [_handle_missing_values]
    simp only [List.map_cons, List.map_nil, normalizeVals_nil]
    rw [hmvColumns, hprocA]
    dsimp only
    rw [hmvColumns, hprocB]
  · rw [create_amy_epw_file, if_neg (by simp)]
    dsimp only
    rw [finishBuild, if_neg (List.not_mem_nil _)]
    rfl

/-- Witness for C6: a three-cell column `[1, absent, 3]` with caps 1/1
satisfies the hypotheses, and the interpolated middle value lies between its
two neighbors. -/
theorem C6_interpolation_witness :
    ∃ v, (interpolateColumn [some (1 : ℚ), none, some 3]).getD 1 none = some v ∧
      min (1 : ℚ) 3 ≤ v ∧ v ≤ max (1 : ℚ) 3 := by
  have h := (C6_interpolation 0 [] [] 1 3 1 1 1 1 1 "c"
    (by simp) (by simp) (by omega) (by omega) (by omega)).2.1 1 (by simp) (by simp)
  simpa using h

/-- Counterexample for C6 as frozen: a column starting with a single absent
cell of run length `max_records_to_interpolate = 1` is passed through the
imputation stage untouched, but the final (forward-direction) interpolation
pass leaves the leading absence unfilled: the claim that every missing
position gets filled fails for a run with no left neighbor. -/
theorem C6_counterexample :
    _handle_missing_values ⟨[0, 1], [("c", [none, some (1 : ℚ)])]⟩ 1 1 1 1 1 [] =
      .ok ⟨[0, 1], [("c", [none, some 1])]⟩
    ∧ (interpolateColumn [none, some (1 : ℚ)]).getD 0 none = none := by
  have hsplit : _split_list_into_contiguous_segments
      (missingPositions [0, 1] [none, some (1 : ℚ)]) 1 = [[0]] := by decide
  have hproc : processColumn [0, 1] 1 1 1 1 1 "c" [none, some (1 : ℚ)] =
      .ok [none, some 1] :=
    processColumn_short hsplit (by decide) (by decide)
  have h : _handle_missing_values ⟨[0, 1], [("c", [none, some (1 : ℚ)])]⟩ 1 1 1 1 1 [] =
      .ok ⟨[0, 1], [("c", interpolateColumn [none, some (1 : ℚ)])]⟩ :=
    hmv_single (by rw [normalizeVals_nil]; exact hproc)
  have hinterp : interpolateColumn [none, some (1 : ℚ)] = [none, some 1] := by decide
  rw [h, hinterp]
  exact ⟨rfl, by decide⟩
